import Mathlib

/-!
A shallow embedding of the ArduPilot `.bin` flight-log decoder
(`src/bussines_logic/bin_log_parser.py`, `src/bussines_logic/controller.py`,
`src/utils/utils.py`) and proofs about it.

A log is modelled as `List Nat` (one entry per byte).  Python dictionaries
are modelled as insertion-ordered association lists with overwrite-in-place
semantics.  `struct` unpacking is modelled byte-exactly for integer codes;
IEEE-754 float fields are carried symbolically (as their raw bytes), since
no property below depends on floating-point arithmetic, only on decode
determinism.  Fallible Python code (exceptions) is modelled with
`Option`/`Except`; in particular `self.warnings.append(...)` on a parser
built with `collect_warnings=False` (where `warnings is None`) raises
`AttributeError`, which the embedding renders as an error value.
-/

namespace FlightLog

/-- Values appearing in decoded messages (the Python side uses
`int`, `float`, `bytes` and `str`).  A float decoded from the wire is kept
as its raw little-endian bytes; `scaled c v` stands for `v * scale_factors[c]`
and `rounded v` for `round(v, 3)` — both are deterministic functions of
their arguments, which is all the verified properties use. -/
inductive PyValue where
  | int : Int → PyValue
  | float : List Nat → PyValue
  | bytes : List Nat → PyValue
  | str : String → PyValue
  | scaled : Char → PyValue → PyValue
  | rounded : PyValue → PyValue
  deriving DecidableEq

/-- `isinstance(val, (int, float))` on values produced by `struct.unpack` or
by scaling. -/
def PyValue.isNumeric : PyValue → Bool
  | .int _ => true
  | .float _ => true
  | .scaled _ _ => true
  | .rounded _ => true
  | _ => false

/-- `isinstance(val, float)`: scaling an `int` by a float factor yields a
float in Python, so `scaled` values count as floats. -/
def PyValue.isFloat : PyValue → Bool
  | .float _ => true
  | .scaled _ _ => true
  | .rounded _ => true
  | _ => false

/-- A decoded message: a Python dict as an insertion-ordered association
list with unique keys. -/
abbrev Msg := List (String × PyValue)

/-- `d[k] = v` on a dict: overwrite in place if the key exists, else append
(Python dicts keep the first-insertion position of a key). -/
def dictSet (m : Msg) (k : String) (v : PyValue) : Msg :=
  if m.any (fun p => p.1 = k) then m.map (fun p => if p.1 = k then (k, v) else p)
  else m ++ [(k, v)]

/-- `d.get(k)` on a dict. -/
def dictGet? (m : Msg) (k : String) : Option PyValue :=
  (m.find? (fun p => p.1 = k)).map (fun p => p.2)

/-- Bytes of the two-byte sync marker `A3 95`. -/
def syncMarker : List Nat := [0xA3, 0x95]

/-- Bytes of an FMT message start `A3 95 80`. -/
def fmtMarker : List Nat := [0xA3, 0x95, 0x80]

/-- `FMT_TYPE_ID = 0x80`. -/
def fmtTypeId : Nat := 0x80

/-- `FMT_MESSAGE_LENGTH = 89`. -/
def fmtMessageLength : Nat := 89

/-- Whether the byte pattern `pat` occurs in `log` starting at offset `p`
(the whole pattern must lie inside the buffer). -/
def bytesMatchAt (log pat : List Nat) (p : Nat) : Bool :=
  decide (p + pat.length ≤ log.length) &&
    (List.range pat.length).all (fun i => log.getD (p + i) 0 == pat.getD i 0)

/-- Linear scan: the first position `q` with `start ≤ q < start + fuel`
satisfying `f`. -/
def findFrom (f : Nat → Bool) : Nat → Nat → Option Nat
  | _, 0 => none
  | start, fuel + 1 => if f start then some start else findFrom f (start + 1) fuel

/-- `mmap.find(pat, start, stop)`: the first offset of `pat` fully inside
`[start, min stop size)`, or `none`.  (Python returns `-1`; callers compare
with `-1`, which the `Option` models.) -/
def mmapFind (log pat : List Nat) (start stop : Nat) : Option Nat :=
  let stopC := min stop log.length
  findFrom (fun p => decide (p + pat.length ≤ stopC) && bytesMatchAt log pat p)
    start (stopC - start)

theorem findFrom_eq_some {f : Nat → Bool} {s n q : Nat} :
    findFrom f s n = some q ↔
      (s ≤ q ∧ q < s + n ∧ f q = true ∧ ∀ r, s ≤ r → r < q → f r = false) := by
  induction n generalizing s with
  | zero => simp [findFrom]; omega
  | succ n ih =>
    simp only [findFrom]
    by_cases h : f s = true
    · simp only [h, if_true]
      constructor
      · intro hsq
        obtain rfl : s = q := Option.some.inj hsq
        exact ⟨le_refl _, by omega, h, fun r hr hr' => absurd hr' (by omega)⟩
      · rintro ⟨h1, _, hq, hmin⟩
        rcases Nat.eq_or_lt_of_le h1 with rfl | hlt
        · rfl
        · exact absurd h (by simp [hmin s (le_refl _) hlt])
    · simp only [h]
      rw [if_neg (by simp [h])]
      rw [ih]
      constructor
      · rintro ⟨h1, h2, hq, hmin⟩
        refine ⟨by omega, by omega, hq, fun r hr hr' => ?_⟩
        rcases Nat.eq_or_lt_of_le hr with rfl | hlt
        · exact Bool.eq_false_iff.mpr h
        · exact hmin r hlt hr'
      · rintro ⟨h1, h2, hq, hmin⟩
        have hs : s < q := by
          rcases Nat.eq_or_lt_of_le h1 with rfl | hlt
          · exact absurd hq (by simp [h])
          · exact hlt
        exact ⟨by omega, by omega, hq, fun r hr hr' => hmin r (by omega) hr'⟩

theorem findFrom_eq_none {f : Nat → Bool} {s n : Nat} :
    findFrom f s n = none ↔ ∀ r, s ≤ r → r < s + n → f r = false := by
  induction n generalizing s with
  | zero => simp [findFrom]; omega
  | succ n ih =>
    simp only [findFrom]
    by_cases h : f s = true
    · simp only [h, if_true]
      constructor
      · intro hc; cases hc
      · intro hall; exact absurd (hall s (le_refl _) (by omega)) (by simp [h])
    · rw [if_neg (by simp [h])]
      rw [ih]
      constructor
      · intro hall r hr hr'
        rcases Nat.eq_or_lt_of_le hr with rfl | hlt
        · exact Bool.eq_false_iff.mpr h
        · exact hall r hlt (by omega)
      · intro hall r hr hr'
        exact hall r (by omega) (by omega)

/-! ### `struct` formats

A compiled Python `struct` format `"<..."` is modelled as the list of its
primitive codes.  `calcsize` is the sum of the code sizes (no padding under
`<`), and `unpack_from` decodes each code from its little-endian bytes. -/

/-- One primitive code of a little-endian `struct` format string. -/
inductive StructCode where
  | uint : Nat → StructCode
  | sint : Nat → StructCode
  | flt : Nat → StructCode
  | blob : Nat → StructCode
  deriving DecidableEq

/-- Byte size of one code (`struct.calcsize` of that code under `<`). -/
def StructCode.size : StructCode → Nat
  | .uint n => n
  | .sint n => n
  | .flt n => n
  | .blob n => n

/-- `struct.calcsize` of a whole format. -/
def calcsize (codes : List StructCode) : Nat :=
  (codes.map StructCode.size).sum

/-- Little-endian byte list to unsigned integer. -/
def leBytesToNat (bs : List Nat) : Nat :=
  bs.foldr (fun b acc => b + 256 * acc) 0

/-- Two's-complement reading of `w` bytes. -/
def leBytesToInt (bs : List Nat) : Int :=
  let u := leBytesToNat bs
  if u < 2 ^ (8 * bs.length - 1) then (u : Int)
  else (u : Int) - 2 ^ (8 * bs.length)

/-- Decode one code from its bytes. -/
def StructCode.unpackOne (c : StructCode) (bs : List Nat) : PyValue :=
  match c with
  | .uint _ => .int (leBytesToNat bs)
  | .sint _ => .int (leBytesToInt bs)
  | .flt _ => .float bs
  | .blob _ => .bytes bs

/-- Decode a code list against the bytes of `log` starting at `off`. -/
def unpackCodes (codes : List StructCode) (log : List Nat) (off : Nat) : List PyValue :=
  match codes with
  | [] => []
  | c :: rest =>
    c.unpackOne ((log.drop off).take c.size) :: unpackCodes rest log (off + c.size)

/-- `struct_obj.unpack_from(buf, off)`: raises `struct.error` when fewer
than `calcsize` bytes remain, which the `none` case models. -/
def structUnpackFrom (codes : List StructCode) (log : List Nat) (off : Nat) :
    Option (List PyValue) :=
  if off + calcsize codes ≤ log.length then some (unpackCodes codes log off) else none

/-! ### Configuration

`config.json` lives outside `src/`; only its loader is in the repository.
The decoder consumes three tables from it (`ardu_to_struct`,
`scale_factors`, `round_fields`), so the embedding is parameterised over
them.  Only the keys of `scale_factors` matter here: the multiplication by
the (float) factor is carried symbolically by `PyValue.scaled`. -/

structure ParserConfig where
  arduToStruct : List (Char × List StructCode)
  scaleFactors : List Char
  roundFields : List String
  deriving DecidableEq

/-! ### ASCII helpers -/

/-- `bytes.decode("ascii", "ignore")`: non-ASCII bytes are dropped. -/
def asciiDecodeIgnore (bs : List Nat) : List Char :=
  (bs.filter (fun b => b < 128)).map (fun b => Char.ofNat b)

/-- Python `str.strip("\x00")`: drop NUL characters from both ends. -/
def stripNulls (s : List Char) : List Char :=
  ((s.dropWhile (fun c => c = '\x00')).reverse.dropWhile (fun c => c = '\x00')).reverse

/-- `re.match(r"^[A-Za-z0-9]+$", s)`: nonempty, all ASCII alphanumeric —
except that `$` in Python also matches just before one trailing newline. -/
def reMatchAlnum (s : List Char) : Bool :=
  let core := if s ≠ [] ∧ s.getLast? = some '\n' then s.dropLast else s
  !core.isEmpty && core.all (fun c =>
    ('A' ≤ c ∧ c ≤ 'Z') ∨ ('a' ≤ c ∧ c ≤ 'z') ∨ ('0' ≤ c ∧ c ≤ '9'))

/-- The part of `s` before the first run of two or more consecutive NULs
(`re.split(r"\x00{2,}", s)[0]`). -/
def beforeDoubleNull : List Char → List Char
  | [] => []
  | [c] => [c]
  | c₁ :: c₂ :: rest =>
    if c₁ = '\x00' ∧ c₂ = '\x00' then []
    else c₁ :: beforeDoubleNull (c₂ :: rest)

/-- Python `str.split(",")` on a character list. -/
def splitComma : List Char → List (List Char)
  | [] => [[]]
  | c :: rest =>
    let r := splitComma rest
    if c = ',' then [] :: r else (c :: r.headD []) :: r.tail

/-- `extract_field_names` (`bin_log_parser.py:266`): ASCII-decode, cut at
the first double NUL, strip NULs, remove spaces, split on commas, drop
empty entries. -/
def extractFieldNames (raw : List Nat) : List String :=
  let cleaned := (stripNulls (beforeDoubleNull (asciiDecodeIgnore raw))).filter (fun c => c ≠ ' ')
  ((splitComma cleaned).map String.mk).filter (fun s => s ≠ "")

/-- `_convert_to_struct_format`: map each `ardu_format` character through
the configured alphabet; unknown characters contribute nothing. -/
def convertToStructFormat (cfg : ParserConfig) (ardu : List Char) : List StructCode :=
  (ardu.map (fun c => ((cfg.arduToStruct.find? (fun p => p.1 = c)).map (fun p => p.2)).getD [])).flatten

/-! ### Format descriptors and the registry -/

/-- One entry of `fmt_definitions` (the dict built by `_parse_fmt_message`).
`hasStructObj` records whether the `"struct_obj"` key is present (it is
added by `_build_struct_objects` / `build_structs_for_local_use`). -/
structure FmtDef where
  id : Nat
  name : String
  arduFormat : List Char
  fieldNames : List String
  structFmt : List StructCode
  structSize : Nat
  messageLength : Nat
  hasStructObj : Bool
  deriving DecidableEq

/-- `fmt_definitions` as an insertion-ordered dict keyed by message id. -/
abbrev Registry := List (Nat × FmtDef)

/-- Dict update with Python semantics (overwrite in place, else append). -/
def regInsert (m : Registry) (k : Nat) (v : FmtDef) : Registry :=
  if m.any (fun p => p.1 = k) then m.map (fun p => if p.1 = k then (k, v) else p)
  else m ++ [(k, v)]

/-- `fmt_definitions.get(k)`. -/
def regGet? (m : Registry) (k : Nat) : Option FmtDef :=
  (m.find? (fun p => p.1 = k)).map (fun p => p.2)

/-- `_build_struct_objects`: compile a `struct.Struct` for every entry
(the format strings produced from the configured alphabet always compile). -/
def buildStructObjects (m : Registry) : Registry :=
  m.map (fun p => (p.1, { p.2 with hasStructObj := true }))

/-! ### Warnings

`BinLogParser.__init__` sets `self.warnings = [] if collect_warnings else
None`.  Every warning site does `self.warnings.append(w)` unconditionally,
so with `collect_warnings=False` a warning event raises `AttributeError`
(`None` has no `append`) — modelled by the `none` result of `appendWarn`. -/

/-- The warning sink: `some l` is a list, `none` is Python `None`. -/
abbrev WarnSink := Option (List String)

/-- `self.warnings.append(w)`: `none` result = `AttributeError` raised. -/
def appendWarn (ws : WarnSink) (w : String) : Option WarnSink :=
  match ws with
  | some l => some (some (l ++ [w]))
  | none => none

/-! ### Single-message decoding (`_decode_single_message` and helpers) -/

/-- `_apply_scaling` (`bin_log_parser.py:202`): values are zipped with the
`ardu_format` characters; a numeric value whose character has a scale
factor is multiplied by it. -/
def applyScaling (cfg : ParserConfig) (values : List PyValue) (ardu : List Char) : List PyValue :=
  (values.zip ardu).map (fun p =>
    if cfg.scaleFactors.contains p.2 && p.1.isNumeric then .scaled p.2 p.1 else p.1)

/-- `_build_message_as_dict` (`bin_log_parser.py:210`): pair field names
with values, attach `message_type`, ASCII-decode byte fields in place,
optionally round selected float fields to 3 decimals. -/
def buildMessageAsDict (cfg : ParserConfig) (roundFloats : Bool) (f : FmtDef)
    (values : List PyValue) : Msg :=
  let m : Msg := (f.fieldNames.zip values).foldl (fun m p => dictSet m p.1 p.2) []
  let m := dictSet m "message_type" (.str f.name)
  let m := m.map (fun p =>
    match p.2 with
    | .bytes bs => (p.1, .str (String.mk (stripNulls (asciiDecodeIgnore bs))))
    | _ => p)
  if roundFloats then
    m.map (fun p =>
      if cfg.roundFields.contains p.1 && p.2.isFloat then (p.1, .rounded p.2) else p)
  else m

/-- Result of `_decode_single_message`: a message, a silent skip (the
function returned `None` after a warning), or an uncaught exception. -/
inductive DecodeRes where
  | emit : Msg → WarnSink → DecodeRes
  | skip : WarnSink → DecodeRes
  | crash : DecodeRes
  deriving DecidableEq

/-- `_decode_single_message` (`bin_log_parser.py:155`).  The Python unpack
failure message also interpolates the exception text; only the offset part
is modelled. -/
def decodeSingleMessage (cfg : ParserConfig) (log : List Nat) (roundFloats : Bool)
    (f : FmtDef) (position endOff : Nat) (ws : WarnSink) : DecodeRes :=
  let payloadStart := position + 3
  let payloadEnd := payloadStart + f.structSize
  if endOff < payloadEnd then
    let sz := f.structSize
    match appendWarn ws s!"Truncated message at offset {position}: expected {sz} bytes" with
    | some ws' => .skip ws'
    | none => .crash
  else
    match structUnpackFrom f.structFmt log payloadStart with
    | none =>
      match appendWarn ws s!"Unpack failed at offset {position}" with
      | some ws' => .skip ws'
      | none => .crash
    | some vals =>
      let scaled := applyScaling cfg vals f.arduFormat
      let nv := scaled.length
      let nf := f.fieldNames.length
      let nm := f.name
      let wsStep :=
        if nv ≠ nf then
          appendWarn ws s!"Field count mismatch for {nm} at {position}: {nv} values vs {nf} fields"
        else some ws
      match wsStep with
      | none => .crash
      | some ws' => .emit (buildMessageAsDict cfg roundFloats f scaled) ws'

/-! ### The scan loop (`parse_messages_in_range`) -/

/-- `_find_next_message` (`bin_log_parser.py:187`): next sync marker in
`[position, endOff)`, rejected when fewer than 4 bytes remain before
`endOff`. -/
def findNextMessage (log : List Nat) (position endOff : Nat) : Option Nat :=
  match mmapFind log syncMarker position endOff with
  | none => none
  | some q => if endOff ≤ q + 3 then none else some q

/-- Truthiness of `message_filter` (`None` and the empty set are falsy). -/
def filterActive : Option (List String) → Bool
  | none => false
  | some l => !l.isEmpty

/-- `message_filter and name not in message_filter`. -/
def filterBlocks (filter : Option (List String)) (name : String) : Bool :=
  filterActive filter && !((filter.getD []).contains name)

/-- Outcome of consuming the generator returned by
`parse_messages_in_range`: the yielded messages and final warning state, an
uncaught exception, or non-termination within the given fuel (Python loops
forever when a registry entry declares `message_length = 0`). -/
inductive PRes where
  | ok : List Msg → WarnSink → PRes
  | crash : PRes
  | fuelOut : PRes
  deriving DecidableEq

/-- The body of the `while True` loop of `parse_messages_in_range`
(`bin_log_parser.py:115`–147), with explicit fuel. -/
def parseLoop (cfg : ParserConfig) (log : List Nat) (fmts : Registry)
    (roundFloats : Bool) (filter : Option (List String)) (endOff : Nat) :
    Nat → Nat → WarnSink → PRes
  | 0, _, _ => .fuelOut
  | fuel + 1, position, ws =>
    match findNextMessage log position endOff with
    | none => .ok [] ws
    | some q =>
      let id := log.getD (q + 2) 0
      if id = fmtTypeId then
        parseLoop cfg log fmts roundFloats filter endOff fuel (q + fmtMessageLength) ws
      else
        match regGet? fmts id with
        | none =>
          match appendWarn ws s!"Unknown or uninitialized message ID at offset {q}: {id}" with
          | none => .crash
          | some ws' => parseLoop cfg log fmts roundFloats filter endOff fuel (q + 1) ws'
        | some f =>
          if !f.hasStructObj then
            match appendWarn ws s!"Unknown or uninitialized message ID at offset {q}: {id}" with
            | none => .crash
            | some ws' => parseLoop cfg log fmts roundFloats filter endOff fuel (q + 1) ws'
          else if filterBlocks filter f.name then
            parseLoop cfg log fmts roundFloats filter endOff fuel (q + f.messageLength) ws
          else
            match decodeSingleMessage cfg log roundFloats f q endOff ws with
            | .crash => .crash
            | .skip ws' =>
              parseLoop cfg log fmts roundFloats filter endOff fuel (q + f.messageLength) ws'
            | .emit m ws' =>
              match parseLoop cfg log fmts roundFloats filter endOff fuel (q + f.messageLength) ws' with
              | .ok ms ws'' => .ok (m :: ms) ws''
              | r => r

/-- `parse_messages_in_range` (`bin_log_parser.py:101`).  Line 108 reads
`end_offset = end_offset or self.mapped_flight_log.size()`, so both `None`
and `0` select the file size.  The loop advances by at least one byte per
iteration (unless a degenerate `message_length = 0` entry makes Python loop
forever), so `log.length + 2` fuel is always sufficient for terminating
runs. -/
def parseMessagesInRange (cfg : ParserConfig) (log : List Nat) (fmts : Registry)
    (roundFloats : Bool) (startOffset : Nat) (endOffset : Option Nat)
    (filter : Option (List String)) (ws : WarnSink) : PRes :=
  let endOff :=
    match endOffset with
    | none => log.length
    | some e => if e = 0 then log.length else e
  parseLoop cfg log fmts roundFloats filter endOff (log.length + 2) startOffset ws

/-! ### FMT discovery (`_parse_fmt_message`, `preload_fmt_messages`) -/

/-- Python byte slice `log[a:b]` (total: clamps, never raises). -/
def pySlice (log : List Nat) (a b : Nat) : List Nat :=
  (log.drop a).take (b - a)

/-- `_parse_fmt_message` (`bin_log_parser.py:233`).  The result is
`(registry, warnings, returned-bool)`; `none` models the uncaught
`AttributeError` when the `except` branch appends to a `None` warning list.
Only the two single-byte indexings (`offset+3`, read first, and `offset+4`,
read while building the dict) can raise inside the `try`; the Python `"Bad
FMT at offset O: err"` message interpolates the exception text, which is
not modelled. -/
def parseFmtMessage (cfg : ParserConfig) (log : List Nat) (fmts : Registry)
    (ws : WarnSink) (offset : Nat) : Option (Registry × WarnSink × Bool) :=
  match log[offset + 3]? with
  | none =>
    match appendWarn ws s!"Bad FMT at offset {offset}" with
    | none => none
    | some ws' => some (fmts, ws', false)
  | some typeId =>
    let msgName := stripNulls (asciiDecodeIgnore (pySlice log (offset + 5) (offset + 9)))
    if !reMatchAlnum msgName then some (fmts, ws, false)
    else
      let ardu := stripNulls (asciiDecodeIgnore (pySlice log (offset + 9) (offset + 25)))
      let fields := extractFieldNames (pySlice log (offset + 25) (offset + 89))
      let structFmt := convertToStructFormat cfg ardu
      match log[offset + 4]? with
      | none =>
        match appendWarn ws s!"Bad FMT at offset {offset}" with
        | none => none
        | some ws' => some (fmts, ws', false)
      | some msgLen =>
        some (regInsert fmts typeId
          ⟨typeId, String.mk msgName, ardu, fields, structFmt, calcsize structFmt, msgLen, false⟩,
          ws, true)

/-- The loop of `preload_fmt_messages` over `_find_fmt_offsets`
(`bin_log_parser.py:44`–47, 53–63): find each `A3 95 80` occurrence,
parse it, and skip 89 bytes.  `_validate_fmt_definitions` only writes to
the logger, so it is a no-op here. -/
def preloadLoop (cfg : ParserConfig) (log : List Nat) :
    Nat → Nat → Registry → WarnSink → Option (Registry × WarnSink)
  | 0, _, _, _ => none
  | fuel + 1, position, fmts, ws =>
    match mmapFind log fmtMarker position log.length with
    | none => some (fmts, ws)
    | some p =>
      match parseFmtMessage cfg log fmts ws p with
      | none => none
      | some (fmts', ws', _) => preloadLoop cfg log fuel (p + fmtMessageLength) fmts' ws'

/-- `preload_fmt_messages` starting from an empty registry.  The position
advances by at least 89 per round, so the fuel is ample. -/
def preloadFmtMessages (cfg : ParserConfig) (log : List Nat) (ws : WarnSink) :
    Option (Registry × WarnSink) :=
  preloadLoop cfg log (log.length + 1) 0 [] ws

/-! ### `utils.find_valid_sync_positions` and `utils.split_ranges` -/

/-- The scan loop of `find_valid_sync_positions` (`utils.py:9`): every sync
marker whose following byte names a registry entry (registry dicts are
always nonempty, so Python's `if fmt:` truthiness is `isSome`) and whose
declared `message_length` fits in the file. -/
def findValidSyncLoop (log : List Nat) (fmts : Registry) : Nat → Nat → List Nat
  | 0, _ => []
  | fuel + 1, position =>
    match mmapFind log syncMarker position log.length with
    | none => []
    | some p =>
      if log.length ≤ p + 3 then []
      else
        match regGet? fmts (log.getD (p + 2) 0) with
        | some f =>
          if p + f.messageLength ≤ log.length then
            p :: findValidSyncLoop log fmts fuel (p + 1)
          else findValidSyncLoop log fmts fuel (p + 1)
        | none => findValidSyncLoop log fmts fuel (p + 1)

def findValidSyncPositions (log : List Nat) (fmts : Registry) : List Nat :=
  findValidSyncLoop log fmts (log.length + 1) 0

/-- The `for i in range(num_parts)` loop of `split_ranges` (`utils.py:40`):
`rem` counts the remaining iterations, `i` the current index, `index` the
cursor into `positions`. -/
def splitRangesGo (positions : List Nat) (fileSize perPart remainder : Nat) :
    Nat → Nat → Nat → List (Nat × Nat)
  | 0, _, _ => []
  | rem + 1, i, index =>
    let tk := perPart + (if i < remainder then 1 else 0)
    let start := positions.getD index 0
    let index2 := index + tk
    let e := if positions.length ≤ index2 then fileSize else positions.getD index2 0
    (start, e) :: splitRangesGo positions fileSize perPart remainder rem (i + 1) index2

/-- `split_ranges` (`utils.py:29`). -/
def splitRanges (positions : List Nat) (numParts fileSize : Nat) : List (Nat × Nat) :=
  if positions.isEmpty then [(0, fileSize)]
  else
    let k := max 1 (min numParts positions.length)
    splitRangesGo positions fileSize (positions.length / k) (positions.length % k) k 0 0

/-! ### Merging (`_load_and_merge_temp_files`) -/

/-- The sort key `message.get("TimeUS", 0)`.  `TimeUS` is an integer
(microseconds) whenever present in a decoded log; a non-integer value —
under which Python's comparison would behave differently or raise — is
mapped to 0, and theorems that depend on the key carry the integer-typed
hypothesis explicitly. -/
def timeUSKey (m : Msg) : Int :=
  match dictGet? m "TimeUS" with
  | some (.int n) => n
  | some _ => 0
  | none => 0

/-- The total preorder induced by the sort key. -/
def msgLE (a b : Msg) : Prop := timeUSKey a ≤ timeUSKey b

instance : DecidableRel msgLE := fun a b => inferInstanceAs (Decidable (timeUSKey a ≤ timeUSKey b))

/-- `_load_and_merge_temp_files` (`controller.py:153`) on the per-segment
message lists: concatenate in the order given, then `list.sort` — a stable
sort keyed on `TimeUS`.  `List.insertionSort` (also stable) embeds it:
stable sorts under the same total preorder produce identical output. -/
def loadAndMergeTempFiles (segs : List (List Msg)) : List Msg :=
  segs.flatten.insertionSort msgLE

/-! ### Segment workers and the parallel coordinator (`controller.py`) -/

/-- `_parse_bin_segment` (`controller.py:103`): a parser with
`collect_warnings=False` (warnings `None`), decode `[s, e)`, drop messages
with `message_type == "FMT"`.  `none` models a worker failure — an
uncaught exception (which `run` propagates) or the degenerate
`message_length = 0` infinite loop. -/
def parseBinSegment (cfg : ParserConfig) (log : List Nat) (fmts : Registry)
    (roundFloats : Bool) (filter : Option (List String)) (s e : Nat) :
    Option (List Msg) :=
  match parseMessagesInRange cfg log fmts roundFloats s (some e) filter none with
  | .ok ms _ => some (ms.filter (fun m => !(dictGet? m "message_type" == some (.str "FMT"))))
  | _ => none

/-- `starmap` over the byte ranges: all workers must succeed (`run`
propagates any worker failure). -/
def mapSegments (f : Nat × Nat → Option (List Msg)) : List (Nat × Nat) → Option (List (List Msg))
  | [] => some []
  | r :: rs =>
    match f r, mapSegments f rs with
    | some s, some ss => some (s :: ss)
    | _, _ => none

/-- `ParallelBinDecoder.run` (`controller.py:189`).  FMT discovery runs
with `collect_warnings=False`; `find_valid_sync_positions` sees the
registry before `struct` objects are built; every worker decodes with a
built registry.  `order` is the order in which per-segment results reach
the merge: `starmap` preserves segment order in process mode, while
`as_completed` in thread mode yields them in an arbitrary permutation, so
theorems quantify over `order` as a permutation of the segment indices. -/
def runDecoder (cfg : ParserConfig) (log : List Nat) (numWorkers : Nat)
    (roundFloats : Bool) (filter : Option (List String)) (order : List Nat) :
    Option (List Msg) :=
  match preloadFmtMessages cfg log none with
  | none => none
  | some (fmts0, _) =>
    let positions := findValidSyncPositions log fmts0
    let ranges := splitRanges positions numWorkers log.length
    let fmts := buildStructObjects fmts0
    match mapSegments (fun r => parseBinSegment cfg log fmts roundFloats filter r.1 r.2) ranges with
    | none => none
    | some segs => some (loadAndMergeTempFiles (order.map (fun i => segs.getD i [])))

/-- The present `TimeUS` value, if any, is a Python integer — true of
every decoded log, since `TimeUS` fields decode from integer codes. -/
def timeUSIsIntOpt (m : Msg) : Bool :=
  match dictGet? m "TimeUS" with
  | some (.int _) => true
  | none => true
  | some _ => false

instance : IsTotal Msg msgLE := ⟨fun a b => Int.le_total (timeUSKey a) (timeUSKey b)⟩

instance : IsTrans Msg msgLE := ⟨fun _ _ _ => Int.le_trans⟩

/-- The cumulative sync-count cursor of `split_ranges`: after `j` rounds
the loop's `index` equals `j * per_part + min j remainder`. -/
def balIdx (perPart remainder j : Nat) : Nat :=
  j * perPart + min j remainder

/-! ### Reference semantics of well-formed logs (claim C1)

A log is *well-formed* when it is a gapless concatenation of frames
starting at offset 0 — FMT frames (89 bytes) and data frames of known,
self-consistent types — with no sync-marker bytes anywhere except at frame
starts, FMT discovery completing without error, and every data type
declared with at least one payload byte.  These are exactly the logs on
which the decoder never takes a warning path. -/

/-- A registry entry that is self-consistent for warning-free decoding:
layout compiled, a real payload (`message_length ≥ 4`), the payload inside
the declared frame, the recorded `struct_size` matching the compiled
format, and as many declared field names as decoded-and-scaled values. -/
def fmtDefOk (f : FmtDef) : Bool :=
  f.hasStructObj && decide (4 ≤ f.messageLength) &&
    decide (f.structSize + 3 ≤ f.messageLength) &&
    decide (f.structSize = calcsize f.structFmt) &&
    decide (min f.structFmt.length f.arduFormat.length = f.fieldNames.length)

/-- The frame starts of a well-formed log, walking from `p` to the file
end; `none` when the bytes from `p` are not a gapless frame concatenation
over the registry. -/
def frameChain (log : List Nat) (fmts : Registry) : Nat → Nat → Option (List Nat)
  | 0, p => if p = log.length then some [] else none
  | fuel + 1, p =>
    if p = log.length then some []
    else if bytesMatchAt log syncMarker p then
      if log.getD (p + 2) 0 = fmtTypeId then
        if p + fmtMessageLength ≤ log.length then
          (frameChain log fmts fuel (p + fmtMessageLength)).map (fun ps => p :: ps)
        else none
      else
        match regGet? fmts (log.getD (p + 2) 0) with
        | some f =>
          if fmtDefOk f && decide (p + f.messageLength ≤ log.length) then
            (frameChain log fmts fuel (p + f.messageLength)).map (fun ps => p :: ps)
          else none
        | none => none
    else none

/-- The frame-chain relation: `Chain log fmts p ps` says the bytes from
`p` to the file end split exactly into the frames starting at the offsets
`ps`. -/
inductive Chain (log : List Nat) (fmts : Registry) : Nat → List Nat → Prop where
  | nil : Chain log fmts log.length []
  | fmt {p : Nat} {rest : List Nat} :
      p ≠ log.length → bytesMatchAt log syncMarker p = true →
      log.getD (p + 2) 0 = fmtTypeId → p + fmtMessageLength ≤ log.length →
      Chain log fmts (p + fmtMessageLength) rest → Chain log fmts p (p :: rest)
  | data {p : Nat} {f : FmtDef} {rest : List Nat} :
      p ≠ log.length → bytesMatchAt log syncMarker p = true →
      log.getD (p + 2) 0 ≠ fmtTypeId → regGet? fmts (log.getD (p + 2) 0) = some f →
      fmtDefOk f = true → p + f.messageLength ≤ log.length →
      Chain log fmts (p + f.messageLength) rest → Chain log fmts p (p :: rest)

/-- What the scan loop emits for the frame at `p` of a well-formed log:
nothing for FMT frames and filtered-out types, the decoded message
otherwise. -/
def emitFrame (cfg : ParserConfig) (log : List Nat) (fmts : Registry)
    (roundFloats : Bool) (filter : Option (List String)) (p : Nat) : List Msg :=
  if log.getD (p + 2) 0 = fmtTypeId then []
  else
    match regGet? fmts (log.getD (p + 2) 0) with
    | some f =>
      if filterBlocks filter f.name then []
      else [buildMessageAsDict cfg roundFloats f
        (applyScaling cfg (unpackCodes f.structFmt log (p + 3)) f.arduFormat)]
    | none => []

/-- Messages emitted for the frames of `ps` that start before `e`. -/
def chainEmit (cfg : ParserConfig) (log : List Nat) (fmts : Registry)
    (roundFloats : Bool) (filter : Option (List String)) : List Nat → Nat → List Msg
  | [], _ => []
  | p :: rest, e =>
    if e ≤ p then []
    else emitFrame cfg log fmts roundFloats filter p ++
      chainEmit cfg log fmts roundFloats filter rest e

/-- The suffix of the frame chain from offset `s` on. -/
def chainFrom (ps : List Nat) (s : Nat) : List Nat :=
  ps.dropWhile (fun x => decide (x < s))

/-- Whether `log` is well-formed over its own FMT declarations (the
registry `preload_fmt_messages` discovers, with `struct` objects built):
discovery succeeds, the file is a gapless frame concatenation from offset
0, and every sync-marker occurrence is a frame start. -/
def wellFormed (cfg : ParserConfig) (log : List Nat) : Bool :=
  match preloadFmtMessages cfg log none with
  | none => false
  | some (fmts0, _) =>
    match frameChain log (buildStructObjects fmts0) (log.length + 1) 0 with
    | none => false
    | some ps =>
      (List.range log.length).all
        (fun q => !bytesMatchAt log syncMarker q || ps.contains q)

/-- The per-sync acceptance test of `find_valid_sync_positions`. -/
def validSyncB (log : List Nat) (fmts : Registry) (q : Nat) : Bool :=
  bytesMatchAt log syncMarker q && decide (q + 3 < log.length) &&
    match regGet? fmts (log.getD (q + 2) 0) with
    | some f => decide (q + f.messageLength ≤ log.length)
    | none => false

/-- How many segments `run` dispatches (one temporary file each). -/
def numSegments (cfg : ParserConfig) (log : List Nat) (numWorkers : Nat) : Nat :=
  match preloadFmtMessages cfg log none with
  | none => 0
  | some (fmts0, _) =>
    (splitRanges (findValidSyncPositions log fmts0) numWorkers log.length).length

/-- `LinkedRanges N b rs`: the ranges `rs` tile `[b, N)` contiguously. -/
def LinkedRanges (N : Nat) : Nat → List (Nat × Nat) → Prop
  | b, [] => b = N
  | b, (s, e) :: rest => s = b ∧ s ≤ e ∧ LinkedRanges N e rest

/-! ## Claims

One theorem per claim of the specification review, in claim order where
convenient. -/

/-- C10: passing `end_offset = 0` to `parse_messages_in_range` behaves
identically to omitting `end_offset`: line 108's `end_offset = end_offset
or self.mapped_flight_log.size()` treats `0` as falsy, so the decode range
becomes `[start_offset, file_size)` rather than the empty range
`[start_offset, 0)`, and messages can be emitted even though the caller
passed an empty upper bound. -/
theorem c10_end_offset_zero_is_whole_file (cfg : ParserConfig) (log : List Nat)
    (fmts : Registry) (roundFloats : Bool) (startOffset : Nat)
    (filter : Option (List String)) (ws : WarnSink) :
    parseMessagesInRange cfg log fmts roundFloats startOffset (some 0) filter ws =
      parseMessagesInRange cfg log fmts roundFloats startOffset none filter ws := rfl

/-- C2 (code bug): with `collect_warnings=False` the parser sets
`self.warnings = None`, yet `parse_messages_in_range` line 131 calls
`self.warnings.append(...)` unconditionally, so the first locally
recoverable warning event (here: an unknown message id at offset 0)
raises `AttributeError` and aborts the decode instead of being silently
discarded.  The same call with `collect_warnings=True` recovers exactly as
the specification describes. -/
theorem c2_collect_warnings_false_crashes :
    parseMessagesInRange ⟨[], [], []⟩ [0xA3, 0x95, 0x07, 0x00] [] false 0 none none none =
        .crash ∧
      parseMessagesInRange ⟨[], [], []⟩ [0xA3, 0x95, 0x07, 0x00] [] false 0 none none (some []) =
        .ok [] (some ["Unknown or uninitialized message ID at offset 0: 7"]) := by
  constructor <;> rfl

/-- C7 (counterexample): the claim says `_find_next_message(start, limit)`
returns the smallest marker offset with `offset + 3 ≤ limit`.  On the
3-byte view `A3 95 00` with `start = 0`, `limit = 3`, the marker sits at
offset 0 and `0 + 3 ≤ 3` holds, yet the code returns none (line 190
rejects `next + 3 >= end_offset`). -/
theorem c7_le_limit_counterexample :
    findNextMessage [0xA3, 0x95, 0x00] 0 3 = none ∧
      bytesMatchAt [0xA3, 0x95, 0x00] syncMarker 0 = true ∧ 0 + 3 ≤ 3 := by
  refine ⟨rfl, rfl, by omega⟩

theorem bytesMatchAt_le_length {log pat : List Nat} {p : Nat}
    (h : bytesMatchAt log pat p = true) : p + pat.length ≤ log.length := by
  have := (Bool.and_eq_true _ _).mp h |>.1
  exact of_decide_eq_true this

theorem mmapFind_eq_some_iff {log pat : List Nat} {start stop q : Nat}
    (hl : 1 ≤ pat.length) :
    mmapFind log pat start stop = some q ↔
      (start ≤ q ∧ q + pat.length ≤ stop ∧ bytesMatchAt log pat q = true ∧
        ∀ r, start ≤ r → r < q →
          ¬(r + pat.length ≤ stop ∧ bytesMatchAt log pat r = true)) := by
  unfold mmapFind
  rw [findFrom_eq_some]
  constructor
  · rintro ⟨h1, h2, hf, hmin⟩
    rw [Bool.and_eq_true, decide_eq_true_eq] at hf
    have hN := bytesMatchAt_le_length hf.2
    refine ⟨h1, by omega, hf.2, ?_⟩
    rintro r hr hrq ⟨hrs, hmr⟩
    have hrN := bytesMatchAt_le_length hmr
    have hT : (decide (r + pat.length ≤ min stop log.length) &&
        bytesMatchAt log pat r) = true := by
      rw [Bool.and_eq_true, decide_eq_true_eq]
      exact ⟨by omega, hmr⟩
    exact Bool.false_ne_true ((hmin r hr hrq).symm.trans hT)
  · rintro ⟨h1, h2, hm, hmin⟩
    have hN := bytesMatchAt_le_length hm
    refine ⟨h1, by omega, ?_, ?_⟩
    · rw [Bool.and_eq_true, decide_eq_true_eq]
      exact ⟨by omega, hm⟩
    · intro r hr hrq
      rw [Bool.eq_false_iff]
      intro hf
      rw [Bool.and_eq_true, decide_eq_true_eq] at hf
      exact hmin r hr hrq ⟨by omega, hf.2⟩

theorem mmapFind_eq_none_iff {log pat : List Nat} {start stop : Nat}
    (hl : 1 ≤ pat.length) :
    mmapFind log pat start stop = none ↔
      ∀ r, start ≤ r → ¬(r + pat.length ≤ stop ∧ bytesMatchAt log pat r = true) := by
  unfold mmapFind
  rw [findFrom_eq_none]
  constructor
  · rintro h r hr ⟨hrs, hmr⟩
    have hrN := bytesMatchAt_le_length hmr
    have hT : (decide (r + pat.length ≤ min stop log.length) &&
        bytesMatchAt log pat r) = true := by
      rw [Bool.and_eq_true, decide_eq_true_eq]
      exact ⟨by omega, hmr⟩
    exact Bool.false_ne_true ((h r hr (by omega)).symm.trans hT)
  · intro h r hr _
    rw [Bool.eq_false_iff]
    intro hf
    rw [Bool.and_eq_true, decide_eq_true_eq] at hf
    have hrN := bytesMatchAt_le_length hf.2
    exact h r hr ⟨by omega, hf.2⟩

theorem findNextMessage_eq_some_iff {log : List Nat} {start limit q : Nat} :
    findNextMessage log start limit = some q ↔
      (mmapFind log syncMarker start limit = some q ∧ q + 3 < limit) := by
  unfold findNextMessage
  rcases hfind : mmapFind log syncMarker start limit with _ | q0
  · simp
  · by_cases hg : limit ≤ q0 + 3
    · simp only [if_pos hg]
      constructor
      · intro h; cases h
      · rintro ⟨h, h3⟩
        obtain rfl : q0 = q := Option.some.inj h
        omega
    · simp only [if_neg hg]
      constructor
      · intro h
        obtain rfl : q0 = q := Option.some.inj h
        exact ⟨rfl, by omega⟩
      · rintro ⟨h, _⟩
        exact h

/-- The sync marker has two bytes. -/
theorem syncMarker_length : syncMarker.length = 2 := rfl

/-- C7 (amended): `_find_next_message(start, limit)` returns the smallest
offset in `[start, limit)` at which the sync marker `A3 95` occurs and
`offset + 3 < limit` holds strictly (the code rejects `offset + 3 >=
limit`), and returns none when no such offset exists. -/
theorem c7_findNextMessage_spec (log : List Nat) (start limit : Nat) :
    (∀ q, findNextMessage log start limit = some q ↔
      (start ≤ q ∧ bytesMatchAt log syncMarker q = true ∧ q + 3 < limit ∧
        ∀ r, start ≤ r → r < q →
          ¬(bytesMatchAt log syncMarker r = true ∧ r + 3 < limit))) ∧
    (findNextMessage log start limit = none ↔
      ∀ q, start ≤ q → ¬(bytesMatchAt log syncMarker q = true ∧ q + 3 < limit)) := by
  constructor
  · intro q
    rw [findNextMessage_eq_some_iff, mmapFind_eq_some_iff (by rw [syncMarker_length]; omega),
      syncMarker_length]
    constructor
    · rintro ⟨⟨h1, h2, hm, hmin⟩, h3⟩
      refine ⟨h1, hm, h3, ?_⟩
      rintro r hr hrq ⟨hmr, hr3⟩
      exact hmin r hr hrq ⟨by omega, hmr⟩
    · rintro ⟨h1, hm, h3, hmin⟩
      refine ⟨⟨h1, by omega, hm, ?_⟩, h3⟩
      rintro r hr hrq ⟨hr2, hmr⟩
      exact hmin r hr hrq ⟨hmr, by omega⟩
  · constructor
    · intro h q hq
      rintro ⟨hm, h3⟩
      unfold findNextMessage at h
      rcases hfind : mmapFind log syncMarker start limit with _ | q0
      · rw [mmapFind_eq_none_iff (by rw [syncMarker_length]; omega)] at hfind
        exact hfind q hq ⟨by rw [syncMarker_length]; omega, hm⟩
      · simp only [hfind] at h
        rw [mmapFind_eq_some_iff (by rw [syncMarker_length]; omega)] at hfind
        obtain ⟨h1, h2, hm0, hmin⟩ := hfind
        by_cases hqq : q < q0
        · exact hmin q hq hqq ⟨by rw [syncMarker_length]; omega, hm⟩
        · by_cases hg : limit ≤ q0 + 3
          · omega
          · rw [if_neg hg] at h; cases h
    · intro h
      rcases hres : findNextMessage log start limit with _ | q0
      · rfl
      · rw [findNextMessage_eq_some_iff, mmapFind_eq_some_iff
          (by rw [syncMarker_length]; omega)] at hres
        exact absurd ⟨hres.1.2.2.1, hres.2⟩ (h q0 hres.1.1)

/-- C7 (amended, witness): on `A3 95 00 00` with limit 4 the code returns
offset 0, which satisfies the strict bound `0 + 3 < 4` and minimality. -/
theorem c7_findNextMessage_spec_witness :
    findNextMessage [0xA3, 0x95, 0x00, 0x00] 0 4 = some 0 ↔
      (0 ≤ 0 ∧ bytesMatchAt [0xA3, 0x95, 0x00, 0x00] syncMarker 0 = true ∧ 0 + 3 < 4 ∧
        ∀ r, 0 ≤ r → r < 0 →
          ¬(bytesMatchAt [0xA3, 0x95, 0x00, 0x00] syncMarker r = true ∧ r + 3 < 4)) :=
  (c7_findNextMessage_spec [0xA3, 0x95, 0x00, 0x00] 0 4).1 0

/-- C3: with `collect_warnings=True`, when the scan finds a sync marker
whose type-id byte (`log[q+2]`) is not `0x80` and is either absent from
the registry or lacks a compiled wire layout (`"struct_obj"`), the loop
appends exactly one warning `"Unknown or uninitialized message ID at
offset q: id"`, advances the scan position by exactly one byte, and
continues decoding — emitting no message for that offset (the result is
exactly the continuation's result). -/
theorem c3_unknown_id_warning (cfg : ParserConfig) (log : List Nat) (fmts : Registry)
    (roundFloats : Bool) (filter : Option (List String)) (endOff fuel position q mid : Nat)
    (l : List String)
    (hfind : findNextMessage log position endOff = some q)
    (hid : log.getD (q + 2) 0 = mid)
    (hne : mid ≠ fmtTypeId)
    (hunk : regGet? fmts mid = none ∨
      ∃ f, regGet? fmts mid = some f ∧ f.hasStructObj = false) :
    parseLoop cfg log fmts roundFloats filter endOff (fuel + 1) position (some l) =
      parseLoop cfg log fmts roundFloats filter endOff fuel (q + 1)
        (some (l ++ [s!"Unknown or uninitialized message ID at offset {q}: {mid}"])) := by
  rcases hunk with hnone | ⟨f, hsome, hobj⟩
  · simp only [parseLoop, hfind, hid, if_neg hne, hnone, appendWarn]
  · simp only [parseLoop, hfind, hid, if_neg hne, hsome, hobj, Bool.not_false, if_pos,
      appendWarn]

/-- C3 (witness): a concrete unknown id 7 at offset 0 of `A3 95 07 00`. -/
theorem c3_unknown_id_warning_witness :
    (findNextMessage [0xA3, 0x95, 0x07, 0x00] 0 4 = some 0 ∧
      List.getD [0xA3, 0x95, 0x07, 0x00] (0 + 2) 0 = 7 ∧ (7 : Nat) ≠ fmtTypeId ∧
      regGet? [] 7 = none) ∧
    parseLoop ⟨[], [], []⟩ [0xA3, 0x95, 0x07, 0x00] [] false none 4 (1 + 1) 0 (some []) =
      parseLoop ⟨[], [], []⟩ [0xA3, 0x95, 0x07, 0x00] [] false none 4 1 (0 + 1)
        (some ([] ++ ["Unknown or uninitialized message ID at offset 0: 7"])) :=
  ⟨⟨by decide, by decide, by decide, by decide⟩,
    c3_unknown_id_warning ⟨[], [], []⟩ [0xA3, 0x95, 0x07, 0x00] [] false none 4 1 0 0 7 []
      (by decide) (by decide) (by decide) (Or.inl (by decide))⟩

/-- C5 (counterexample): the claim says a frame whose payload would cross
the segment end terminates the segment with no further messages.  With a
registry entry whose declared `message_length` (3) is smaller than
`struct_size + 3` (13) — Python keeps such descriptors, warning only — the
loop advances by 3 past the truncated frame at offset 0 and then decodes
and emits the type-6 message at offset 3, after the truncation warning. -/
theorem c5_truncation_counterexample :
    parseMessagesInRange ⟨[], [], []⟩ [0xA3, 0x95, 0x05, 0xA3, 0x95, 0x06, 0x07]
        [(5, ⟨5, "BIG", [], [], [.blob 10], 10, 3, true⟩),
         (6, ⟨6, "SML", ['B'], ["A"], [.uint 1], 1, 4, true⟩)]
        false 0 (some 7) none (some []) =
      .ok [[("A", .int 7), ("message_type", .str "SML")]]
        (some ["Truncated message at offset 0: expected 10 bytes"]) := by
  rfl

/-- C5 (amended): with `collect_warnings=True`, when the scan reaches a
known, unfiltered message whose payload would cross the segment end
(`q + 3 + struct_size > end_offset`), it appends exactly one truncation
warning, emits no message for that frame, and advances by the type's
declared `message_length`; whenever `message_length ≥ struct_size + 3`
(the self-consistent case) the new position leaves no room for a further
sync, so the rest of the segment yields no messages and the segment
terminates. -/
theorem c5_truncation_skips_frame (cfg : ParserConfig) (log : List Nat) (fmts : Registry)
    (roundFloats : Bool) (filter : Option (List String)) (endOff fuel position q mid sz : Nat)
    (f : FmtDef) (l : List String)
    (hfind : findNextMessage log position endOff = some q)
    (hid : log.getD (q + 2) 0 = mid)
    (hne : mid ≠ fmtTypeId)
    (hreg : regGet? fmts mid = some f)
    (hobj : f.hasStructObj = true)
    (hfil : filterBlocks filter f.name = false)
    (hsz : f.structSize = sz)
    (htrunc : endOff < q + 3 + sz) :
    parseLoop cfg log fmts roundFloats filter endOff (fuel + 1) position (some l) =
      parseLoop cfg log fmts roundFloats filter endOff fuel (q + f.messageLength)
        (some (l ++ [s!"Truncated message at offset {q}: expected {sz} bytes"])) ∧
    (sz + 3 ≤ f.messageLength →
      ∀ fuel' ws', parseLoop cfg log fmts roundFloats filter endOff (fuel' + 1)
        (q + f.messageLength) ws' = .ok [] ws') := by
  constructor
  · simp only [parseLoop, hfind, hid, if_neg hne, hreg, hobj, Bool.not_true,
      Bool.false_eq_true, if_neg, hfil, decodeSingleMessage, hsz,
      if_pos (show endOff < q + 3 + sz by omega), appendWarn]
    simp
  · intro hcons fuel' ws'
    have hnone : findNextMessage log (q + f.messageLength) endOff = none := by
      unfold findNextMessage
      have : mmapFind log syncMarker (q + f.messageLength) endOff = none := by
        rw [mmapFind_eq_none_iff (by rw [syncMarker_length]; omega)]
        rintro r hr ⟨hrs, _⟩
        rw [syncMarker_length] at hrs
        omega
      rw [this]
    simp only [parseLoop, hnone]

/-- C5 (amended, witness): a self-consistent type (`message_length = 5 =
struct_size + 3`) truncated at the end of a 4-byte view: after the
truncation warning the segment indeed ends. -/
theorem c5_truncation_skips_frame_witness :
    (findNextMessage [0xA3, 0x95, 0x06, 0x07] 0 4 = some 0 ∧
      regGet? [(6, ⟨6, "SML", ['B', 'B'], ["A", "B"], [.uint 1, .uint 1], 2, 5, true⟩)] 6 =
        some ⟨6, "SML", ['B', 'B'], ["A", "B"], [.uint 1, .uint 1], 2, 5, true⟩ ∧
      4 < 0 + 3 + 2) ∧
    (parseLoop ⟨[], [], []⟩ [0xA3, 0x95, 0x06, 0x07]
        [(6, ⟨6, "SML", ['B', 'B'], ["A", "B"], [.uint 1, .uint 1], 2, 5, true⟩)]
        false none 4 (1 + 1) 0 (some []) =
      parseLoop ⟨[], [], []⟩ [0xA3, 0x95, 0x06, 0x07]
        [(6, ⟨6, "SML", ['B', 'B'], ["A", "B"], [.uint 1, .uint 1], 2, 5, true⟩)]
        false none 4 1 (0 + 5)
        (some ([] ++ ["Truncated message at offset 0: expected 2 bytes"])) ∧
      (2 + 3 ≤ 5 →
        ∀ fuel' ws', parseLoop ⟨[], [], []⟩ [0xA3, 0x95, 0x06, 0x07]
          [(6, ⟨6, "SML", ['B', 'B'], ["A", "B"], [.uint 1, .uint 1], 2, 5, true⟩)]
          false none 4 (fuel' + 1) (0 + 5) ws' = .ok [] ws')) :=
  ⟨⟨by decide, by decide, by omega⟩,
    c5_truncation_skips_frame ⟨[], [], []⟩ [0xA3, 0x95, 0x06, 0x07]
      [(6, ⟨6, "SML", ['B', 'B'], ["A", "B"], [.uint 1, .uint 1], 2, 5, true⟩)]
      false none 4 1 0 0 6 2
      ⟨6, "SML", ['B', 'B'], ["A", "B"], [.uint 1, .uint 1], 2, 5, true⟩ []
      (by decide) (by decide) (by decide) (by decide) (by decide) (by decide) (by decide)
      (by omega)⟩

/-- C8 (counterexample): the claim says a candidate FMT record whose
decoded name fails `^[A-Za-z0-9]+$` is rejected *and a warning is
emitted*.  On a record whose name bytes are four spaces the code returns
`False` without touching the registry — and without appending any warning
(line 241 is a bare `return False`): the warning list stays `[]`. -/
theorem c8_bad_name_counterexample :
    parseFmtMessage ⟨[], [], []⟩ [0xA3, 0x95, 0x80, 0x01, 0x0A, 0x20, 0x20, 0x20, 0x20]
        [] (some []) 0 = some ([], some [], false) := by
  rfl

/-- C8 (amended): when the candidate FMT record's decoded 4-byte name
fails the regex `^[A-Za-z0-9]+$`, `_parse_fmt_message` rejects the record —
it returns `False` and adds no registry entry — and emits *no* warning:
registry and warning list are returned unchanged. -/
theorem c8_bad_name_rejected (cfg : ParserConfig) (log : List Nat) (fmts : Registry)
    (ws : WarnSink) (offset tid : Nat)
    (h3 : log[offset + 3]? = some tid)
    (hname : reMatchAlnum (stripNulls (asciiDecodeIgnore
      (pySlice log (offset + 5) (offset + 9)))) = false) :
    parseFmtMessage cfg log fmts ws offset = some (fmts, ws, false) := by
  simp only [parseFmtMessage, h3, hname, Bool.not_false, if_pos]

/-- C8 (amended, witness): the space-named record again, under a nonempty
configuration, registry-free, with a nonempty warning list left intact. -/
theorem c8_bad_name_rejected_witness :
    (([0xA3, 0x95, 0x80, 0x01, 0x0A, 0x20, 0x20, 0x20, 0x20] : List Nat)[0 + 3]? =
        some 1 ∧
      reMatchAlnum (stripNulls (asciiDecodeIgnore
        (pySlice [0xA3, 0x95, 0x80, 0x01, 0x0A, 0x20, 0x20, 0x20, 0x20] (0 + 5) (0 + 9)))) =
        false) ∧
    parseFmtMessage ⟨[('z', [])], [], []⟩
        [0xA3, 0x95, 0x80, 0x01, 0x0A, 0x20, 0x20, 0x20, 0x20] [] (some ["w"]) 0 =
      some ([], some ["w"], false) :=
  ⟨⟨by decide, by decide⟩,
    c8_bad_name_rejected ⟨[('z', [])], [], []⟩
      [0xA3, 0x95, 0x80, 0x01, 0x0A, 0x20, 0x20, 0x20, 0x20] [] (some ["w"]) 0 1
      (by decide) (by decide)⟩

/-! ### Helper lemmas for `split_ranges` (claim C4) -/

theorem getD_eq_getElem (l : List Nat) (n : Nat) (h : n < l.length) :
    l.getD n 0 = l[n] := by
  rw [List.getD_eq_getElem?_getD, List.getElem?_eq_getElem h, Option.getD_some]

theorem getD_mem (l : List Nat) (n : Nat) (h : n < l.length) : l.getD n 0 ∈ l := by
  rw [getD_eq_getElem l n h]
  exact List.getElem_mem h

theorem sorted_getD_lt_getD {ps : List Nat} (hs : ps.Sorted (· < ·)) {a b : Nat}
    (hb : b < ps.length) (hab : a < b) : ps.getD a 0 < ps.getD b 0 := by
  have ha : a < ps.length := by omega
  rw [getD_eq_getElem ps a ha, getD_eq_getElem ps b hb]
  have := hs.rel_get_of_lt (a := ⟨a, ha⟩) (b := ⟨b, hb⟩) hab
  simpa using this

theorem sorted_getD_le_iff {ps : List Nat} (hs : ps.Sorted (· < ·)) {a b : Nat}
    (ha : a < ps.length) (hb : b < ps.length) :
    ps.getD a 0 ≤ ps.getD b 0 ↔ a ≤ b := by
  constructor
  · intro h
    by_contra hab
    have := sorted_getD_lt_getD hs ha (show b < a by omega)
    omega
  · intro h
    rcases Nat.eq_or_lt_of_le h with rfl | hlt
    · exact le_refl _
    · exact le_of_lt (sorted_getD_lt_getD hs hb hlt)

theorem sorted_getD_lt_iff {ps : List Nat} (hs : ps.Sorted (· < ·)) {a b : Nat}
    (ha : a < ps.length) (hb : b < ps.length) :
    ps.getD a 0 < ps.getD b 0 ↔ a < b := by
  constructor
  · intro h
    by_contra hab
    exact absurd ((sorted_getD_le_iff hs hb ha).mpr (by omega)) (by omega)
  · exact sorted_getD_lt_getD hs hb

/-- Counting the members of `ps` inside a window whose value-level
predicate corresponds to the index interval `[A, B)`. -/
theorem count_window (P : Nat → Bool) :
    ∀ (ps : List Nat) (A B : Nat), A ≤ B → B ≤ ps.length →
    (∀ t, t < ps.length → (P (ps.getD t 0) = true ↔ (A ≤ t ∧ t < B))) →
    (ps.filter P).length = B - A
  | [], A, B, hAB, hB, _ => by
    simp only [List.length_nil] at hB
    simp only [List.filter_nil, List.length_nil]
    omega
  | x :: xs, A, B, hAB, hB, h => by
    have htail : ∀ t, t < xs.length →
        (P (xs.getD t 0) = true ↔ (A - 1 ≤ t ∧ t < B - 1)) := by
      intro t ht
      have := h (t + 1) (by simp; omega)
      rw [List.getD_cons_succ] at this
      rw [this]
      omega
    have hx := h 0 (by simp)
    rw [List.getD_cons_zero] at hx
    have hrec := count_window P xs (A - 1) (B - 1) (by omega) (by simp at hB; omega) htail
    by_cases hPx : P x = true
    · have h0 : A = 0 ∧ 0 < B := by
        have := hx.mp hPx
        omega
      rw [List.filter_cons_of_pos hPx, List.length_cons, hrec]
      omega
    · have h0 : ¬(A ≤ 0 ∧ 0 < B) := fun hc => hPx (hx.mpr hc)
      rw [List.filter_cons_of_neg (by simp [hPx]), hrec]
      omega

theorem balIdx_succ (perPart remainder j : Nat) :
    balIdx perPart remainder (j + 1) =
      balIdx perPart remainder j + (perPart + if j < remainder then 1 else 0) := by
  unfold balIdx
  by_cases h : j < remainder
  · rw [if_pos h, Nat.succ_mul]
    have h1 : min j remainder = j := by omega
    have h2 : min (j + 1) remainder = j + 1 := by omega
    omega
  · rw [if_neg h, Nat.succ_mul]
    have h1 : min j remainder = remainder := by omega
    have h2 : min (j + 1) remainder = remainder := by omega
    omega

theorem balIdx_lt_of_lt (perPart remainder : Nat) (hpp : 1 ≤ perPart) :
    ∀ {a b : Nat}, a < b → balIdx perPart remainder a < balIdx perPart remainder b := by
  intro a b hab
  induction b with
  | zero => omega
  | succ b ih =>
    rw [balIdx_succ]
    rcases Nat.lt_succ_iff_lt_or_eq.mp hab with h | rfl
    · have := ih h
      omega
    · omega

theorem balIdx_zero (perPart remainder : Nat) : balIdx perPart remainder 0 = 0 := by
  simp [balIdx]

theorem splitRangesGo_length (ps : List Nat) (fs pp r : Nat) :
    ∀ rem i index, (splitRangesGo ps fs pp r rem i index).length = rem
  | 0, _, _ => rfl
  | rem + 1, i, index => by
    simp only [splitRangesGo, List.length_cons]
    rw [splitRangesGo_length ps fs pp r rem]

theorem splitRangesGo_getD (ps : List Nat) (fs pp r : Nat) :
    ∀ rem i j, j < rem →
    (splitRangesGo ps fs pp r rem i (balIdx pp r i)).getD j (0, 0) =
      (ps.getD (balIdx pp r (i + j)) 0,
        if ps.length ≤ balIdx pp r (i + j + 1) then fs
        else ps.getD (balIdx pp r (i + j + 1)) 0)
  | 0, _, _, hj => by omega
  | rem + 1, i, 0, _ => by
    simp only [splitRangesGo, List.getD_cons_zero, Nat.add_zero]
    rw [← balIdx_succ]
  | rem + 1, i, j + 1, hj => by
    simp only [splitRangesGo, List.getD_cons_succ]
    rw [← balIdx_succ]
    have h2 := splitRangesGo_getD ps fs pp r rem (i + 1) j (by omega)
    have e1 : i + 1 + j = i + (j + 1) := by omega
    rw [e1] at h2
    exact h2

/-- C4: `split_ranges` on the empty position list returns exactly
`[(0, file_size)]`; on a nonempty, strictly sorted position list with all
positions below `file_size` it returns exactly `k = max 1 (min num_parts
|positions|)` ranges such that every range starts at a position of the
list, consecutive ranges are contiguous (`range[j].end ==
range[j+1].start`), the last range ends at `file_size`, and the number of
positions falling in range `j` is `|positions| / k` plus one extra for the
first `|positions| mod k` ranges (so per-range counts differ by at most
one). -/
theorem c4_splitRanges_spec (positions : List Nat) (numParts fileSize : Nat)
    (hs : positions.Sorted (· < ·)) (hlt : ∀ p ∈ positions, p < fileSize) :
    (positions = [] → splitRanges positions numParts fileSize = [(0, fileSize)]) ∧
    (positions ≠ [] →
      (splitRanges positions numParts fileSize).length =
        max 1 (min numParts positions.length) ∧
      (∀ j, j < max 1 (min numParts positions.length) →
        ((splitRanges positions numParts fileSize).getD j (0, 0)).1 ∈ positions) ∧
      (∀ j, j + 1 < max 1 (min numParts positions.length) →
        ((splitRanges positions numParts fileSize).getD j (0, 0)).2 =
          ((splitRanges positions numParts fileSize).getD (j + 1) (0, 0)).1) ∧
      ((splitRanges positions numParts fileSize).getD
          (max 1 (min numParts positions.length) - 1) (0, 0)).2 = fileSize ∧
      (∀ j, j < max 1 (min numParts positions.length) →
        (positions.filter (fun p =>
          decide (((splitRanges positions numParts fileSize).getD j (0, 0)).1 ≤ p) &&
          decide (p < ((splitRanges positions numParts fileSize).getD j (0, 0)).2))).length =
        positions.length / max 1 (min numParts positions.length) +
          if j < positions.length % max 1 (min numParts positions.length) then 1
          else 0)) := by
  constructor
  · intro h
    subst h
    rfl
  · intro hne
    set n := positions.length with hn
    have hn1 : 1 ≤ n := by
      rw [hn]
      cases positions with
      | nil => exact absurd rfl hne
      | cons a l => simp
    set k := max 1 (min numParts n) with hk
    have hk1 : 1 ≤ k := le_max_left _ _
    have hkn : k ≤ n := by omega
    set pp := n / k with hpp
    set r := n % k with hr
    have hpp1 : 1 ≤ pp := (Nat.one_le_div_iff (by omega)).mpr hkn
    have hrk : r < k := Nat.mod_lt _ (by omega)
    have hFk : balIdx pp r k = n := by
      unfold balIdx
      have h1 : min k r = r := by omega
      have h2 : k * pp + r = n := by
        rw [hpp, hr]
        exact Nat.div_add_mod n k
      omega
    have hFlt : ∀ j, j < k → balIdx pp r j < n := by
      intro j hj
      have := balIdx_lt_of_lt pp r hpp1 hj
      omega
    have hFle : ∀ j, j ≤ k → balIdx pp r j ≤ n := by
      intro j hj
      rcases Nat.eq_or_lt_of_le hj with rfl | hlt'
      · omega
      · exact le_of_lt (hFlt j hlt')
    have hsplit : splitRanges positions numParts fileSize =
        splitRangesGo positions fileSize pp r k 0 (balIdx pp r 0) := by
      unfold splitRanges
      rw [if_neg (by simpa using hne), balIdx_zero]
    have hget : ∀ j, j < k →
        (splitRanges positions numParts fileSize).getD j (0, 0) =
          (positions.getD (balIdx pp r j) 0,
            if n ≤ balIdx pp r (j + 1) then fileSize
            else positions.getD (balIdx pp r (j + 1)) 0) := by
      intro j hj
      rw [hsplit, splitRangesGo_getD positions fileSize pp r k 0 j hj]
      simp
    refine ⟨?_, ?_, ?_, ?_, ?_⟩
    · rw [hsplit, splitRangesGo_length]
    · intro j hj
      rw [hget j hj]
      exact getD_mem _ _ (hFlt j hj)
    · intro j hj
      rw [hget j (by omega), hget (j + 1) (by omega)]
      have : ¬(n ≤ balIdx pp r (j + 1)) := by
        have := hFlt (j + 1) (by omega)
        omega
      rw [if_neg this]
    · rw [hget (k - 1) (by omega)]
      have : k - 1 + 1 = k := by omega
      rw [this, if_pos (by omega)]
    · intro j hj
      rw [hget j hj]
      have hcount := count_window
        (fun p => decide (positions.getD (balIdx pp r j) 0 ≤ p) &&
          decide (p < if n ≤ balIdx pp r (j + 1) then fileSize
            else positions.getD (balIdx pp r (j + 1)) 0))
        positions (balIdx pp r j) (balIdx pp r (j + 1))
        (le_of_lt (balIdx_lt_of_lt pp r hpp1 (by omega)))
        (hFle (j + 1) (by omega))
        ?_
      · rw [hcount, balIdx_succ]
        have := balIdx_lt_of_lt pp r hpp1 (show j < j + 1 by omega)
        omega
      · intro t ht
        rw [Bool.and_eq_true, decide_eq_true_eq, decide_eq_true_eq]
        constructor
        · rintro ⟨h1, h2⟩
          refine ⟨(sorted_getD_le_iff hs (hFlt j hj) ht).mp h1, ?_⟩
          by_cases hend : n ≤ balIdx pp r (j + 1)
          · rw [if_pos hend] at h2
            omega
          · rw [if_neg hend] at h2
            exact (sorted_getD_lt_iff hs ht (by omega)).mp h2
        · rintro ⟨h1, h2⟩
          refine ⟨(sorted_getD_le_iff hs (hFlt j hj) ht).mpr h1, ?_⟩
          by_cases hend : n ≤ balIdx pp r (j + 1)
          · rw [if_pos hend]
            exact hlt _ (getD_mem _ _ ht)
          · rw [if_neg hend]
            exact (sorted_getD_lt_iff hs ht (by omega)).mpr h2

/-- C4 (witness): `positions = [0, 100]`, `num_parts = 8`, `file_size =
1000` (the spec's own edge case): two ranges `[(0,100),(100,1000)]`. -/
theorem c4_splitRanges_spec_witness :
    (([0, 100] : List Nat).Sorted (· < ·) ∧ ∀ p ∈ ([0, 100] : List Nat), p < 1000) ∧
    ([0, 100] ≠ ([] : List Nat) →
      (splitRanges [0, 100] 8 1000).length = max 1 (min 8 ([0, 100] : List Nat).length) ∧
      (∀ j, j < max 1 (min 8 ([0, 100] : List Nat).length) →
        ((splitRanges [0, 100] 8 1000).getD j (0, 0)).1 ∈ ([0, 100] : List Nat)) ∧
      (∀ j, j + 1 < max 1 (min 8 ([0, 100] : List Nat).length) →
        ((splitRanges [0, 100] 8 1000).getD j (0, 0)).2 =
          ((splitRanges [0, 100] 8 1000).getD (j + 1) (0, 0)).1) ∧
      ((splitRanges [0, 100] 8 1000).getD
          (max 1 (min 8 ([0, 100] : List Nat).length) - 1) (0, 0)).2 = 1000 ∧
      (∀ j, j < max 1 (min 8 ([0, 100] : List Nat).length) →
        (([0, 100] : List Nat).filter (fun p =>
          decide (((splitRanges [0, 100] 8 1000).getD j (0, 0)).1 ≤ p) &&
          decide (p < ((splitRanges [0, 100] 8 1000).getD j (0, 0)).2))).length =
        ([0, 100] : List Nat).length / max 1 (min 8 ([0, 100] : List Nat).length) +
          if j < ([0, 100] : List Nat).length % max 1 (min 8 ([0, 100] : List Nat).length)
          then 1 else 0)) :=
  ⟨⟨by decide, by decide⟩,
    (c4_splitRanges_spec [0, 100] 8 1000 (by decide) (by decide)).2⟩

/-! ### The merge (claim C6) -/

/-- C6: the merged output is a permutation of the concatenation of the
per-segment message lists, it is sorted non-decreasingly by the `TimeUS`
key — where a message lacking `TimeUS` is ordered as if its value were
0 — and the sort is stable: for every key value, the subsequence of
messages with that key equals the corresponding subsequence of the
concatenated input.  The hypothesis pins the scope in which the model's
integer key agrees with Python: every present `TimeUS` value is an
integer. -/
theorem c6_merge_sorted_stable_perm (segs : List (List Msg))
    (_hint : segs.flatten.all timeUSIsIntOpt = true) :
    (loadAndMergeTempFiles segs).Perm segs.flatten ∧
    (loadAndMergeTempFiles segs).Sorted msgLE ∧
    ∀ kv : Int,
      (loadAndMergeTempFiles segs).filter (fun m => decide (timeUSKey m = kv)) =
        segs.flatten.filter (fun m => decide (timeUSKey m = kv)) := by
  refine ⟨List.perm_insertionSort msgLE segs.flatten,
    List.sorted_insertionSort msgLE segs.flatten, ?_⟩
  intro kv
  set P : Msg → Bool := fun m => decide (timeUSKey m = kv) with hP
  have hPkey : ∀ m, P m = true → timeUSKey m = kv := by
    intro m hm
    rw [hP] at hm
    exact of_decide_eq_true hm
  have hpair : (segs.flatten.filter P).Pairwise msgLE := by
    apply List.pairwise_of_forall_mem_list
    intro a ha b hb
    have hka := hPkey a (List.of_mem_filter ha)
    have hkb := hPkey b (List.of_mem_filter hb)
    unfold msgLE
    omega
  have hsub : List.Sublist (segs.flatten.filter P) (loadAndMergeTempFiles segs) := by
    unfold loadAndMergeTempFiles
    exact List.sublist_insertionSort hpair (List.filter_sublist _)
  have hsub2 : List.Sublist (segs.flatten.filter P) ((loadAndMergeTempFiles segs).filter P) := by
    have : (segs.flatten.filter P).filter P = segs.flatten.filter P := by
      rw [List.filter_filter]
      apply List.filter_congr
      intro m _
      cases h : P m <;> simp [h]
    rw [← this]
    exact List.Sublist.filter P hsub
  have hperm : ((loadAndMergeTempFiles segs).filter P).Perm (segs.flatten.filter P) :=
    (List.perm_insertionSort msgLE segs.flatten).filter P
  exact ((List.Sublist.eq_of_length hsub2 hperm.length_eq.symm).symm)

/-- C6 (witness): two segments, one message lacking `TimeUS` (key 0). -/
theorem c6_merge_sorted_stable_perm_witness :
    ([[[("TimeUS", PyValue.int 5)]], [[("TimeUS", PyValue.int 3)], [("x", PyValue.str "a")]]]
        : List (List Msg)).flatten.all timeUSIsIntOpt = true ∧
    ((loadAndMergeTempFiles
        [[[("TimeUS", PyValue.int 5)]], [[("TimeUS", PyValue.int 3)], [("x", PyValue.str "a")]]]).Perm
      ([[[("TimeUS", PyValue.int 5)]], [[("TimeUS", PyValue.int 3)], [("x", PyValue.str "a")]]]
        : List (List Msg)).flatten ∧
    (loadAndMergeTempFiles
        [[[("TimeUS", PyValue.int 5)]], [[("TimeUS", PyValue.int 3)], [("x", PyValue.str "a")]]]).Sorted
      msgLE ∧
    ∀ kv : Int,
      (loadAndMergeTempFiles
          [[[("TimeUS", PyValue.int 5)]],
           [[("TimeUS", PyValue.int 3)], [("x", PyValue.str "a")]]]).filter
          (fun m => decide (timeUSKey m = kv)) =
        ([[[("TimeUS", PyValue.int 5)]], [[("TimeUS", PyValue.int 3)], [("x", PyValue.str "a")]]]
          : List (List Msg)).flatten.filter (fun m => decide (timeUSKey m = kv))) :=
  ⟨by decide,
    c6_merge_sorted_stable_perm
      [[[("TimeUS", PyValue.int 5)]], [[("TimeUS", PyValue.int 3)], [("x", PyValue.str "a")]]]
      (by decide)⟩

/-! ### No FMT leakage (claim C9) -/

theorem mapSegments_mem {f : Nat × Nat → Option (List Msg)} :
    ∀ {rs : List (Nat × Nat)} {segs : List (List Msg)},
      mapSegments f rs = some segs → ∀ s ∈ segs, ∃ r ∈ rs, f r = some s := by
  intro rs
  induction rs with
  | nil =>
    intro segs h s hs
    cases h
    cases hs
  | cons r rs ih =>
    intro segs h s hs
    unfold mapSegments at h
    rcases hr : f r with _ | s0
    · rw [hr] at h; cases h
    · rcases hrs : mapSegments f rs with _ | ss
      · rw [hr, hrs] at h; cases h
      · rw [hr, hrs] at h
        obtain rfl : s0 :: ss = segs := Option.some.inj h
        rcases List.mem_cons.mp hs with rfl | hs
        · exact ⟨r, List.mem_cons_self r rs, hr⟩
        · obtain ⟨r', hr', hfr'⟩ := ih hrs s hs
          exact ⟨r', List.mem_cons_of_mem _ hr', hfr'⟩

/-- C9: no message returned by `ParallelBinDecoder.run` has
`message_type == "FMT"`: every merged message comes from some segment
list, and `_parse_bin_segment` filters FMT-typed messages out of every
segment. -/
theorem c9_no_fmt_in_run (cfg : ParserConfig) (log : List Nat) (numWorkers : Nat)
    (roundFloats : Bool) (filter : Option (List String)) (order : List Nat)
    (msgs : List Msg) (m : Msg)
    (hrun : runDecoder cfg log numWorkers roundFloats filter order = some msgs)
    (hm : m ∈ msgs) :
    dictGet? m "message_type" ≠ some (.str "FMT") := by
  unfold runDecoder at hrun
  rcases hpre : preloadFmtMessages cfg log none with _ | p
  · rw [hpre] at hrun; cases hrun
  · rcases p with ⟨fmts0, ws0⟩
    simp only [hpre] at hrun
    rcases hmap : mapSegments (fun r => parseBinSegment cfg log (buildStructObjects fmts0)
        roundFloats filter r.1 r.2)
        (splitRanges (findValidSyncPositions log fmts0) numWorkers log.length) with _ | segs
    · rw [hmap] at hrun; cases hrun
    · rw [hmap] at hrun
      obtain rfl : loadAndMergeTempFiles (order.map (fun i => segs.getD i [])) = msgs :=
        Option.some.inj hrun
      unfold loadAndMergeTempFiles at hm
      rw [List.mem_insertionSort] at hm
      rw [List.mem_flatten] at hm
      obtain ⟨l, hl, hml⟩ := hm
      rw [List.mem_map] at hl
      obtain ⟨i, _, rfl⟩ := hl
      by_cases hi : i < segs.length
      · have hseg : segs.getD i [] ∈ segs := by
          rw [List.getD_eq_getElem?_getD, List.getElem?_eq_getElem hi, Option.getD_some]
          exact List.getElem_mem hi
        obtain ⟨r, _, hfr⟩ := mapSegments_mem hmap _ hseg
        unfold parseBinSegment at hfr
        cases hp : parseMessagesInRange cfg log (buildStructObjects fmts0) roundFloats r.1
            (some r.2) filter none with
        | ok ms ws =>
          simp only [hp] at hfr
          obtain hfilter : ms.filter _ = segs.getD i [] := Option.some.inj hfr
          rw [← hfilter] at hml
          have := List.of_mem_filter hml
          intro hc
          rw [hc] at this
          simp at this
        | crash =>
          simp only [hp] at hfr
          exact Option.noConfusion hfr
        | fuelOut =>
          simp only [hp] at hfr
          exact Option.noConfusion hfr
      · rw [List.getD_eq_getElem?_getD, List.getElem?_eq_none (by omega)] at hml
        cases hml

/-- C9 (witness): a 93-byte log (one FMT record declaring type 200 `TST`
with a single `uint8` field, one data message) decoded end-to-end by
`run` with one worker. -/
theorem c9_no_fmt_in_run_witness :
    runDecoder ⟨[('B', [.uint 1])], [], []⟩
        ([0xA3, 0x95, 0x80, 200, 4] ++ [84, 83, 84, 0] ++
          (66 :: List.replicate 15 0) ++ (65 :: List.replicate 63 0) ++ [0xA3, 0x95, 200, 7])
        1 false none [0] =
      some [[("A", .int 7), ("message_type", .str "TST")]] ∧
    dictGet? [("A", .int 7), ("message_type", .str "TST")] "message_type" ≠
      some (.str "FMT") :=
  ⟨by rfl,
    c9_no_fmt_in_run ⟨[('B', [.uint 1])], [], []⟩
      ([0xA3, 0x95, 0x80, 200, 4] ++ [84, 83, 84, 0] ++
        (66 :: List.replicate 15 0) ++ (65 :: List.replicate 63 0) ++ [0xA3, 0x95, 200, 7])
      1 false none [0] [[("A", .int 7), ("message_type", .str "TST")]]
      [("A", .int 7), ("message_type", .str "TST")] (by rfl) (by simp)⟩

/-! ### Chain lemmas (claim C1) -/

theorem unpackCodes_length (codes : List StructCode) (log : List Nat) :
    ∀ off, (unpackCodes codes log off).length = codes.length := by
  induction codes with
  | nil => intro off; rfl
  | cons c rest ih =>
    intro off
    simp only [unpackCodes, List.length_cons, ih]

theorem applyScaling_length (cfg : ParserConfig) (values : List PyValue) (ardu : List Char) :
    (applyScaling cfg values ardu).length = min values.length ardu.length := by
  simp [applyScaling]

theorem regGet?_build (m : Registry) (k : Nat) :
    regGet? (buildStructObjects m) k =
      (regGet? m k).map (fun f => { f with hasStructObj := true }) := by
  unfold regGet? buildStructObjects
  induction m with
  | nil => rfl
  | cons p rest ih =>
    by_cases h : p.1 = k
    · simp [List.find?_cons, h]
    · simp only [List.map_cons, List.find?_cons]
      have h1 : (decide (p.1 = k)) = false := by simp [h]
      rw [h1]
      exact ih

theorem fmtDefOk_iff {f : FmtDef} :
    fmtDefOk f = true ↔
      (f.hasStructObj = true ∧ 4 ≤ f.messageLength ∧
        f.structSize + 3 ≤ f.messageLength ∧ f.structSize = calcsize f.structFmt ∧
        min f.structFmt.length f.arduFormat.length = f.fieldNames.length) := by
  unfold fmtDefOk
  simp only [Bool.and_eq_true, decide_eq_true_eq]
  tauto

theorem frameChain_sound {log : List Nat} {fmts : Registry} :
    ∀ {fuel p ps}, frameChain log fmts fuel p = some ps → Chain log fmts p ps := by
  intro fuel
  induction fuel with
  | zero =>
    intro p ps h
    unfold frameChain at h
    by_cases hp : p = log.length
    · rw [if_pos hp] at h
      obtain rfl : [] = ps := Option.some.inj h
      exact hp ▸ Chain.nil
    · rw [if_neg hp] at h
      cases h
  | succ fuel ih =>
    intro p ps h
    unfold frameChain at h
    by_cases hp : p = log.length
    · rw [if_pos hp] at h
      obtain rfl : [] = ps := Option.some.inj h
      exact hp ▸ Chain.nil
    · rw [if_neg hp] at h
      by_cases hm : bytesMatchAt log syncMarker p = true
      · rw [if_pos hm] at h
        by_cases hid : log.getD (p + 2) 0 = fmtTypeId
        · rw [if_pos hid] at h
          by_cases hlen : p + fmtMessageLength ≤ log.length
          · rw [if_pos hlen] at h
            rcases hrec : frameChain log fmts fuel (p + fmtMessageLength) with _ | rest
            · rw [hrec] at h; cases h
            · rw [hrec] at h
              obtain rfl : p :: rest = ps := Option.some.inj h
              exact Chain.fmt hp hm hid hlen (ih hrec)
          · rw [if_neg hlen] at h; cases h
        · rw [if_neg hid] at h
          rcases hreg : regGet? fmts (log.getD (p + 2) 0) with _ | f
          · rw [hreg] at h; cases h
          · simp only [hreg] at h
            by_cases hok : (fmtDefOk f && decide (p + f.messageLength ≤ log.length)) = true
            · rw [if_pos hok] at h
              rcases hrec : frameChain log fmts fuel (p + f.messageLength) with _ | rest
              · rw [hrec] at h; cases h
              · rw [hrec] at h
                obtain rfl : p :: rest = ps := Option.some.inj h
                rw [Bool.and_eq_true, decide_eq_true_eq] at hok
                exact Chain.data hp hm hid hreg hok.1 hok.2 (ih hrec)
            · rw [if_neg hok] at h; cases h
      · rw [if_neg (by simp [hm])] at h
        cases h

theorem Chain.start_le {log : List Nat} {fmts : Registry} {s : Nat} {ps : List Nat}
    (h : Chain log fmts s ps) : ∀ x ∈ ps, s ≤ x := by
  induction h with
  | nil => intro x hx; cases hx
  | fmt hp hm hid hlen _ ih =>
    intro x hx
    rcases List.mem_cons.mp hx with rfl | hx
    · exact le_refl _
    · have := ih x hx
      omega
  | data hp hm hid hreg hok hlen _ ih =>
    intro x hx
    rcases List.mem_cons.mp hx with rfl | hx
    · exact le_refl _
    · have := ih x hx
      have h4 : 4 ≤ _ := (fmtDefOk_iff.mp hok).2.1
      omega

theorem Chain.mem_lt_length {log : List Nat} {fmts : Registry} {s : Nat} {ps : List Nat}
    (h : Chain log fmts s ps) : ∀ x ∈ ps, x + 2 ≤ log.length := by
  induction h with
  | nil => intro x hx; cases hx
  | fmt hp hm hid hlen _ ih =>
    intro x hx
    rcases List.mem_cons.mp hx with rfl | hx
    · exact bytesMatchAt_le_length hm
    · exact ih x hx
  | data hp hm hid hreg hok hlen _ ih =>
    intro x hx
    rcases List.mem_cons.mp hx with rfl | hx
    · exact bytesMatchAt_le_length hm
    · exact ih x hx

theorem Chain.length_le {log : List Nat} {fmts : Registry} {s : Nat} {ps : List Nat}
    (h : Chain log fmts s ps) : s + ps.length ≤ log.length := by
  induction h with
  | nil => simp
  | fmt hp hm hid hlen _ ih =>
    have h89 : fmtMessageLength = 89 := rfl
    simp only [List.length_cons]
    omega
  | data hp hm hid hreg hok hlen _ ih =>
    have h4 : 4 ≤ _ := (fmtDefOk_iff.mp hok).2.1
    simp only [List.length_cons]
    omega

theorem findNextMessage_none_of_le {log : List Nat} {pos e : Nat} (h : e ≤ pos) :
    findNextMessage log pos e = none := by
  unfold findNextMessage
  have : mmapFind log syncMarker pos e = none := by
    rw [mmapFind_eq_none_iff (by rw [syncMarker_length]; omega)]
    rintro r hr ⟨hrs, _⟩
    rw [syncMarker_length] at hrs
    omega
  rw [this]

theorem chainEmit_nil (cfg : ParserConfig) (log : List Nat) (fmts : Registry)
    (roundFloats : Bool) (filter : Option (List String)) (e : Nat) :
    chainEmit cfg log fmts roundFloats filter [] e = [] := rfl

theorem chainEmit_cons (cfg : ParserConfig) (log : List Nat) (fmts : Registry)
    (roundFloats : Bool) (filter : Option (List String)) (p : Nat) (rest : List Nat)
    (e : Nat) :
    chainEmit cfg log fmts roundFloats filter (p :: rest) e =
      if e ≤ p then []
      else emitFrame cfg log fmts roundFloats filter p ++
        chainEmit cfg log fmts roundFloats filter rest e := rfl

/-- Central decode lemma: starting anywhere on the frame chain of a
well-formed log, with the segment end itself on the chain (or at the file
end), the scan loop takes no warning path and emits exactly the messages
of the chain frames before the segment end. -/
theorem parseLoop_chain (cfg : ParserConfig) (log : List Nat) (fmts : Registry)
    (roundFloats : Bool) (filter : Option (List String)) :
    ∀ {s : Nat} {ss : List Nat}, Chain log fmts s ss →
    ∀ (e : Nat), (e = log.length ∨ e ∈ ss) →
    ∀ (fuel : Nat), ss.length < fuel → ∀ (ws : WarnSink),
    parseLoop cfg log fmts roundFloats filter e fuel s ws =
      .ok (chainEmit cfg log fmts roundFloats filter ss e) ws := by
  intro s ss hch
  induction hch with
  | nil =>
    intro e he fuel hfuel ws
    have he' : e = log.length := by
      rcases he with h | h
      · exact h
      · cases h
    obtain ⟨fuel', rfl⟩ : ∃ f', fuel = f' + 1 := ⟨fuel - 1, by omega⟩
    unfold parseLoop
    rw [findNextMessage_none_of_le (by omega)]
    rfl
  | @fmt p rest hp hm hid hlen hsub ih =>
    intro e he fuel hfuel ws
    obtain ⟨fuel', rfl⟩ : ∃ f', fuel = f' + 1 := ⟨fuel - 1, by omega⟩
    have h89 : fmtMessageLength = 89 := rfl
    by_cases hep : e ≤ p
    · unfold parseLoop
      rw [findNextMessage_none_of_le hep]
      unfold chainEmit
      rw [if_pos hep]
    · have hnext : p + fmtMessageLength ≤ e := by
        rcases he with rfl | he
        · exact hlen
        · rcases List.mem_cons.mp he with rfl | he
          · omega
          · exact hsub.start_le e he
      have hfind : findNextMessage log p e = some p := by
        rw [findNextMessage_eq_some_iff]
        refine ⟨?_, by omega⟩
        rw [mmapFind_eq_some_iff (by rw [syncMarker_length]; omega)]
        exact ⟨le_refl _, by rw [syncMarker_length]; omega, hm,
          fun r hr hrq => absurd hrq (by omega)⟩
      have he' : e = log.length ∨ e ∈ rest := by
        rcases he with rfl | he
        · exact Or.inl rfl
        · rcases List.mem_cons.mp he with rfl | he
          · omega
          · exact Or.inr he
      have hrec := ih e he' fuel' (by simp only [List.length_cons] at hfuel; omega) ws
      simp only [parseLoop, hfind]
      rw [if_pos hid, hrec, chainEmit_cons, if_neg hep]
      unfold emitFrame
      rw [if_pos hid, List.nil_append]
  | @data p f rest hp hm hid hreg hok hlen hsub ih =>
    intro e he fuel hfuel ws
    obtain ⟨fuel', rfl⟩ : ∃ f', fuel = f' + 1 := ⟨fuel - 1, by omega⟩
    obtain ⟨hso, h4, hss3, hcalc, harity⟩ := fmtDefOk_iff.mp hok
    by_cases hep : e ≤ p
    · unfold parseLoop
      rw [findNextMessage_none_of_le hep]
      unfold chainEmit
      rw [if_pos hep]
    · have hnext : p + f.messageLength ≤ e := by
        rcases he with rfl | he
        · exact hlen
        · rcases List.mem_cons.mp he with rfl | he
          · omega
          · exact hsub.start_le e he
      have hfind : findNextMessage log p e = some p := by
        rw [findNextMessage_eq_some_iff]
        refine ⟨?_, by omega⟩
        rw [mmapFind_eq_some_iff (by rw [syncMarker_length]; omega)]
        exact ⟨le_refl _, by rw [syncMarker_length]; omega, hm,
          fun r hr hrq => absurd hrq (by omega)⟩
      have he' : e = log.length ∨ e ∈ rest := by
        rcases he with rfl | he
        · exact Or.inl rfl
        · rcases List.mem_cons.mp he with rfl | he
          · omega
          · exact Or.inr he
      have hrec := ih e he' fuel' (by simp only [List.length_cons] at hfuel; omega)
      simp only [parseLoop, hfind]
      rw [if_neg hid]
      simp only [hreg, hso, Bool.not_true, Bool.false_eq_true, if_false]
      by_cases hfil : filterBlocks filter f.name = true
      · rw [if_pos hfil, hrec ws, chainEmit_cons, if_neg hep]
        unfold emitFrame
        rw [if_neg hid]
        simp only [hreg]
        rw [if_pos hfil, List.nil_append]
      · rw [if_neg hfil]
        have hdec : decodeSingleMessage cfg log roundFloats f p e ws =
            .emit (buildMessageAsDict cfg roundFloats f
              (applyScaling cfg (unpackCodes f.structFmt log (p + 3)) f.arduFormat)) ws := by
          unfold decodeSingleMessage
          rw [if_neg (by omega)]
          have hunp : structUnpackFrom f.structFmt log (p + 3) =
              some (unpackCodes f.structFmt log (p + 3)) := by
            unfold structUnpackFrom
            rw [if_pos (by rw [← hcalc]; omega)]
          rw [hunp]
          have hlen2 : (applyScaling cfg (unpackCodes f.structFmt log (p + 3))
              f.arduFormat).length = f.fieldNames.length := by
            rw [applyScaling_length, unpackCodes_length]
            exact harity
          simp only [hlen2, ne_eq, not_true_eq_false, if_neg, ite_false]
        simp only [hdec, hrec]
        rw [chainEmit_cons, if_neg hep]
        unfold emitFrame
        rw [if_neg hid]
        simp only [hreg]
        rw [if_neg hfil, List.singleton_append]

theorem mem_range'_iff {s n m : Nat} : m ∈ List.range' s n ↔ (s ≤ m ∧ m < s + n) := by
  rw [List.mem_range']
  constructor
  · rintro ⟨i, hi, rfl⟩
    omega
  · rintro ⟨h1, h2⟩
    exact ⟨m - s, by omega, by omega⟩

theorem pairwise_lt_range' : ∀ (n s : Nat), (List.range' s n).Pairwise (· < ·) := by
  intro n
  induction n with
  | zero => intro s; simp
  | succ n ih =>
    intro s
    rw [List.range'_succ]
    refine List.Pairwise.cons ?_ (ih (s + 1))
    intro x hx
    have := mem_range'_iff.mp hx
    omega

theorem chainFrom_zero (ps : List Nat) : chainFrom ps 0 = ps := by
  unfold chainFrom
  cases ps with
  | nil => rfl
  | cons p rest => simp

theorem chainFrom_eq_nil {ps : List Nat} {s : Nat} (h : ∀ x ∈ ps, x < s) :
    chainFrom ps s = [] := by
  unfold chainFrom
  induction ps with
  | nil => rfl
  | cons p rest ih =>
    rw [List.dropWhile_cons_of_pos (by simpa using h p (List.mem_cons_self p rest))]
    exact ih (fun x hx => h x (List.mem_cons_of_mem _ hx))

theorem chainFrom_chainFrom {ps : List Nat} {b c : Nat} (hbc : b ≤ c) :
    chainFrom (chainFrom ps b) c = chainFrom ps c := by
  unfold chainFrom
  induction ps with
  | nil => rfl
  | cons p rest ih =>
    by_cases hpb : p < b
    · rw [List.dropWhile_cons_of_pos (by simpa using hpb),
        List.dropWhile_cons_of_pos (by simp; omega)]
      exact ih
    · rw [List.dropWhile_cons_of_neg (by simpa using hpb)]

theorem mem_chainFrom {ps : List Nat} {x s : Nat} (hx : x ∈ ps) (hs : s ≤ x) :
    x ∈ chainFrom ps s := by
  unfold chainFrom
  have hsplit := List.takeWhile_append_dropWhile (fun y => decide (y < s)) (l := ps)
  rw [← hsplit] at hx
  rcases List.mem_append.mp hx with h | h
  · have := List.mem_takeWhile_imp h
    simp at this
    omega
  · exact h

/-- Dropping a prefix of the chain before `c` does not change what is
emitted past `c`, provided the dropped frames emit nothing. -/
theorem chainEmit_split (cfg : ParserConfig) (log : List Nat) (fmts : Registry)
    (roundFloats : Bool) (filter : Option (List String)) :
    ∀ (ss : List Nat) (c e : Nat), c ≤ e →
    chainEmit cfg log fmts roundFloats filter ss c ++
      chainEmit cfg log fmts roundFloats filter
        (ss.dropWhile (fun x => decide (x < c))) e =
      chainEmit cfg log fmts roundFloats filter ss e := by
  intro ss
  induction ss with
  | nil => intro c e _; rfl
  | cons p rest ih =>
    intro c e hce
    by_cases hpc : p < c
    · rw [chainEmit_cons, if_neg (by omega),
        List.dropWhile_cons_of_pos (by simpa using hpc),
        chainEmit_cons, if_neg (by omega), List.append_assoc, ih c e hce]
    · rw [chainEmit_cons, if_pos (by omega),
        List.dropWhile_cons_of_neg (by simpa using hpc), List.nil_append]

/-- Frames that emit nothing can be dropped from the front of the chain. -/
theorem chainEmit_drop_silent (cfg : ParserConfig) (log : List Nat) (fmts : Registry)
    (roundFloats : Bool) (filter : Option (List String)) :
    ∀ (ss : List Nat) (c e : Nat),
    (∀ p ∈ ss, p < c → emitFrame cfg log fmts roundFloats filter p = []) →
    (∀ p ∈ ss, p < e) →
    chainEmit cfg log fmts roundFloats filter ss e =
      chainEmit cfg log fmts roundFloats filter
        (ss.dropWhile (fun x => decide (x < c))) e := by
  intro ss
  induction ss with
  | nil => intro c e _ _; rfl
  | cons p rest ih =>
    intro c e hsil hlt
    by_cases hpc : p < c
    · rw [chainEmit_cons,
        if_neg (by have := hlt p (List.mem_cons_self p rest); omega),
        List.dropWhile_cons_of_pos (by simpa using hpc),
        hsil p (List.mem_cons_self p rest) hpc, List.nil_append]
      exact ih c e (fun q hq => hsil q (List.mem_cons_of_mem _ hq))
        (fun q hq => hlt q (List.mem_cons_of_mem _ hq))
    · rw [List.dropWhile_cons_of_neg (by simpa using hpc)]

theorem Chain.suffix {log : List Nat} {fmts : Registry} {t : Nat} {ps : List Nat}
    (h : Chain log fmts t ps) : ∀ s ∈ ps, Chain log fmts s (chainFrom ps s) := by
  induction h with
  | nil => intro s hs; cases hs
  | @fmt p rest hp hm hid hlen hsub ih =>
    intro s hs
    rcases List.mem_cons.mp hs with rfl | hs
    · have : chainFrom (s :: rest) s = s :: rest := by
        unfold chainFrom
        rw [List.dropWhile_cons_of_neg (by simp)]
      rw [this]
      exact Chain.fmt hp hm hid hlen hsub
    · have hps : p < s := by
        have := hsub.start_le s hs
        have h89 : fmtMessageLength = 89 := rfl
        omega
      have : chainFrom (p :: rest) s = chainFrom rest s := by
        unfold chainFrom
        rw [List.dropWhile_cons_of_pos (by simpa using hps)]
      rw [this]
      exact ih s hs
  | @data p f rest hp hm hid hreg hok hlen hsub ih =>
    intro s hs
    rcases List.mem_cons.mp hs with rfl | hs
    · have : chainFrom (s :: rest) s = s :: rest := by
        unfold chainFrom
        rw [List.dropWhile_cons_of_neg (by simp)]
      rw [this]
      exact Chain.data hp hm hid hreg hok hlen hsub
    · have hps : p < s := by
        have := hsub.start_le s hs
        have h4 : 4 ≤ f.messageLength := (fmtDefOk_iff.mp hok).2.1
        omega
      have : chainFrom (p :: rest) s = chainFrom rest s := by
        unfold chainFrom
        rw [List.dropWhile_cons_of_pos (by simpa using hps)]
      rw [this]
      exact ih s hs

/-- The scan of `find_valid_sync_positions` collects exactly the offsets
passing `validSyncB`, in ascending order. -/
theorem findValidSyncLoop_eq (log : List Nat) (fmts : Registry) :
    ∀ fuel pos, log.length ≤ pos + fuel →
    findValidSyncLoop log fmts fuel pos =
      (List.range' pos (log.length - pos)).filter (validSyncB log fmts) := by
  intro fuel
  induction fuel with
  | zero =>
    intro pos hpos
    have : log.length - pos = 0 := by omega
    rw [this]
    simp [findValidSyncLoop]
  | succ fuel ih =>
    intro pos hpos
    unfold findValidSyncLoop
    split
    · rename_i hfind
      rw [mmapFind_eq_none_iff (by rw [syncMarker_length]; omega)] at hfind
      symm
      rw [List.filter_eq_nil_iff]
      intro a ha hva
      have ha' := mem_range'_iff.mp ha
      have hva' : validSyncB log fmts a = true := hva
      unfold validSyncB at hva'
      rw [Bool.and_eq_true, Bool.and_eq_true] at hva'
      have hmark := hva'.1.1
      have haN := bytesMatchAt_le_length hmark
      rw [syncMarker_length] at haN
      exact hfind a ha'.1 ⟨by rw [syncMarker_length]; omega, hmark⟩
    · rename_i m hfind
      have hfind' := hfind
      rw [mmapFind_eq_some_iff (by rw [syncMarker_length]; omega)] at hfind'
      obtain ⟨hpm, hm2, hmark, hmin⟩ := hfind'
      rw [syncMarker_length] at hm2
      have hmN := bytesMatchAt_le_length hmark
      rw [syncMarker_length] at hmN
      -- the filter over [pos, m) is empty
      have hpre : ((List.range' pos (m - pos)).filter (validSyncB log fmts)) = [] := by
        rw [List.filter_eq_nil_iff]
        intro a ha hva
        have ha' := mem_range'_iff.mp ha
        have hva' : validSyncB log fmts a = true := hva
        unfold validSyncB at hva'
        rw [Bool.and_eq_true, Bool.and_eq_true] at hva'
        have hmark' := hva'.1.1
        have haN := bytesMatchAt_le_length hmark'
        rw [syncMarker_length] at haN
        exact hmin a ha'.1 (by omega) ⟨by rw [syncMarker_length]; omega, hmark'⟩
      have hsplit : List.range' pos (log.length - pos) =
          List.range' pos (m - pos) ++ List.range' m (log.length - m) := by
        have := List.range'_append_1 pos (m - pos) (log.length - m)
        rw [show pos + (m - pos) = m by omega] at this
        rw [show log.length - m + (m - pos) = log.length - pos by omega] at this
        exact this.symm
      rw [hsplit, List.filter_append, hpre, List.nil_append]
      by_cases hm3 : log.length ≤ m + 3
      · rw [if_pos hm3]
        symm
        rw [List.filter_eq_nil_iff]
        intro a ha hva
        have ha' := mem_range'_iff.mp ha
        have hva' : validSyncB log fmts a = true := hva
        unfold validSyncB at hva'
        rw [Bool.and_eq_true, Bool.and_eq_true, decide_eq_true_eq] at hva'
        omega
      · rw [if_neg hm3]
        have hmlt : m < log.length := by omega
        have hrange : List.range' m (log.length - m) =
            m :: List.range' (m + 1) (log.length - (m + 1)) := by
          rw [show log.length - m = (log.length - (m + 1)) + 1 by omega,
            List.range'_succ]
        rw [hrange]
        have hrec := ih (m + 1) (by omega)
        split
        · rename_i f hreg
          by_cases hfit : m + f.messageLength ≤ log.length
          · have hvm : validSyncB log fmts m = true := by
              unfold validSyncB
              rw [hreg, Bool.and_eq_true, Bool.and_eq_true]
              refine ⟨⟨hmark, by simp; omega⟩, by simpa using hfit⟩
            rw [if_pos hfit, List.filter_cons_of_pos hvm, hrec]
          · have hvm : validSyncB log fmts m = false := by
              unfold validSyncB
              rw [hreg]
              simp only [Bool.and_eq_false_iff]
              right
              simpa using hfit
            rw [if_neg hfit, List.filter_cons_of_neg (by simp [hvm]), hrec]
        · rename_i hreg
          have hvm : validSyncB log fmts m = false := by
            unfold validSyncB
            rw [hreg]
            simp
          rw [List.filter_cons_of_neg (by simp [hvm]), hrec]

theorem findValidSyncPositions_eq (log : List Nat) (fmts : Registry) :
    findValidSyncPositions log fmts =
      (List.range' 0 log.length).filter (validSyncB log fmts) := by
  unfold findValidSyncPositions
  rw [findValidSyncLoop_eq log fmts (log.length + 1) 0 (by omega)]
  rw [Nat.sub_zero]

theorem findValidSyncPositions_sorted (log : List Nat) (fmts : Registry) :
    (findValidSyncPositions log fmts).Sorted (· < ·) := by
  rw [findValidSyncPositions_eq]
  exact List.Pairwise.sublist (List.filter_sublist _) (pairwise_lt_range' log.length 0)

theorem mem_findValidSyncPositions {log : List Nat} {fmts : Registry} {q : Nat} :
    q ∈ findValidSyncPositions log fmts ↔ validSyncB log fmts q = true := by
  rw [findValidSyncPositions_eq, List.mem_filter]
  constructor
  · exact fun h => h.2
  · intro h
    refine ⟨?_, h⟩
    unfold validSyncB at h
    rw [Bool.and_eq_true, Bool.and_eq_true, decide_eq_true_eq] at h
    rw [mem_range'_iff]
    omega

theorem Chain.eq_nil_iff {log : List Nat} {fmts : Registry} {t : Nat} {ps : List Nat}
    (h : Chain log fmts t ps) (hps : ps = []) : t = log.length := by
  cases h with
  | nil => rfl
  | fmt _ _ _ _ _ => cases hps
  | data _ _ _ _ _ _ _ => cases hps

theorem Chain.head_eq {log : List Nat} {fmts : Registry} {t p : Nat} {rest : List Nat}
    (h : Chain log fmts t (p :: rest)) : p = t := by
  cases h with
  | fmt _ _ _ _ _ => rfl
  | data _ _ _ _ _ _ _ => rfl

theorem Chain.node {log : List Nat} {fmts : Registry} {t : Nat} {ps : List Nat}
    (h : Chain log fmts t ps) :
    ∀ p ∈ ps, log.getD (p + 2) 0 = fmtTypeId ∨
      ∃ f, regGet? fmts (log.getD (p + 2) 0) = some f ∧ fmtDefOk f = true ∧
        p + f.messageLength ≤ log.length ∧ bytesMatchAt log syncMarker p = true := by
  induction h with
  | nil => intro p hp; cases hp
  | @fmt q rest hp hm hid hlen hsub ih =>
    intro p hp
    rcases List.mem_cons.mp hp with rfl | hp
    · exact Or.inl hid
    · exact ih p hp
  | @data q f rest hp hm hid hreg hok hlen hsub ih =>
    intro p hp
    rcases List.mem_cons.mp hp with rfl | hp
    · exact Or.inr ⟨f, hreg, hok, hlen, hm⟩
    · exact ih p hp

/-- `_parse_bin_segment` on a well-formed log, between chain offsets,
succeeds and returns the (FMT-name-filtered) chain emission. -/
theorem parseBinSegment_chain (cfg : ParserConfig) (log : List Nat) (fmts : Registry)
    (roundFloats : Bool) (filter : Option (List String)) {ps : List Nat}
    (hch : Chain log fmts 0 ps) (b e : Nat)
    (hb : b = log.length ∨ b ∈ ps) (he : e = log.length ∨ e ∈ ps)
    (hbe : b ≤ e) (he0 : e = 0 → log.length = 0) :
    parseBinSegment cfg log fmts roundFloats filter b e =
      some ((chainEmit cfg log fmts roundFloats filter (chainFrom ps b) e).filter
        (fun m => !(dictGet? m "message_type" == some (.str "FMT")))) := by
  have hlt : ∀ x ∈ ps, x < log.length := by
    intro x hx
    have := hch.mem_lt_length x hx
    omega
  have hchb : Chain log fmts b (chainFrom ps b) := by
    rcases hb with rfl | hb
    · rw [chainFrom_eq_nil hlt]
      exact Chain.nil
    · exact hch.suffix b hb
  have hssle : (chainFrom ps b).length ≤ ps.length :=
    (List.dropWhile_sublist _).length_le
  have hpslen : ps.length ≤ log.length := by
    have := hch.length_le
    omega
  have hmem : e = log.length ∨ e ∈ chainFrom ps b := by
    rcases he with rfl | he
    · exact Or.inl rfl
    · exact Or.inr (mem_chainFrom he hbe)
  have hloop := parseLoop_chain cfg log fmts roundFloats filter hchb e hmem
    (log.length + 2) (by omega) none
  simp only [parseBinSegment, parseMessagesInRange]
  have hEq : (if e = 0 then log.length else e) = e := by
    by_cases h : e = 0
    · rw [if_pos h, he0 h, h]
    · rw [if_neg h]
  rw [hEq, hloop]

theorem mapSegments_eq {f : Nat × Nat → Option (List Msg)} {g : Nat × Nat → List Msg} :
    ∀ {rs : List (Nat × Nat)}, (∀ r ∈ rs, f r = some (g r)) →
      mapSegments f rs = some (rs.map g) := by
  intro rs
  induction rs with
  | nil => intro _; rfl
  | cons r rest ih =>
    intro h
    unfold mapSegments
    rw [h r (List.mem_cons_self r rest), ih (fun q hq => h q (List.mem_cons_of_mem _ hq))]
    rfl

theorem getD_eq_getElem' {α : Type} (l : List α) (d : α) (n : Nat) (h : n < l.length) :
    l.getD n d = l[n] := by
  rw [List.getD_eq_getElem?_getD, List.getElem?_eq_getElem h, Option.getD_some]

theorem map_getD_range {α : Type} (l : List α) (d : α) :
    (List.range l.length).map (fun i => l.getD i d) = l := by
  induction l with
  | nil => rfl
  | cons x xs ih =>
    rw [List.length_cons, List.range_succ_eq_map, List.map_cons, List.map_map]
    simp only [List.getD_cons_zero, Function.comp]
    congr 1

theorem filter_flatten' {α : Type} (p : α → Bool) :
    ∀ (L : List (List α)), (L.map (fun l => l.filter p)).flatten = L.flatten.filter p := by
  intro L
  induction L with
  | nil => rfl
  | cons l rest ih =>
    simp only [List.map_cons, List.flatten_cons, List.filter_append, ih]

theorem LinkedRanges.le_end {N : Nat} : ∀ {b : Nat} {rs : List (Nat × Nat)},
    LinkedRanges N b rs → b ≤ N := by
  intro b rs
  induction rs generalizing b with
  | nil => intro h; exact le_of_eq h
  | cons r rest ih =>
    rcases r with ⟨s, e⟩
    rintro ⟨rfl, hse, hrest⟩
    have := ih hrest
    omega

/-- Concatenating the chain emissions of contiguous ranges from `b` to the
file end gives the chain emission of `[b, N)`. -/
theorem linked_flatten (cfg : ParserConfig) (log : List Nat) (fmts : Registry)
    (roundFloats : Bool) (filter : Option (List String)) (ps : List Nat) (N : Nat)
    (hlt : ∀ x ∈ ps, x < N) :
    ∀ (rs : List (Nat × Nat)) (b : Nat), LinkedRanges N b rs →
    ((rs.map (fun r =>
      chainEmit cfg log fmts roundFloats filter (chainFrom ps r.1) r.2)).flatten) =
      chainEmit cfg log fmts roundFloats filter (chainFrom ps b) N := by
  intro rs
  induction rs with
  | nil =>
    intro b hb
    obtain rfl : b = N := hb
    rw [chainFrom_eq_nil hlt]
    rfl
  | cons r rest ih =>
    rcases r with ⟨s, e⟩
    rintro b ⟨rfl, hse, hrest⟩
    have heN : e ≤ N := hrest.le_end
    rw [List.map_cons, List.flatten_cons, ih e hrest]
    have := chainEmit_split cfg log fmts roundFloats filter (chainFrom ps s) e N heN
    rw [← this]
    congr 1
    rw [show ((chainFrom ps s).dropWhile fun x => decide (x < e)) =
      chainFrom (chainFrom ps s) e from rfl]
    rw [chainFrom_chainFrom hse]

/-- The ranges produced by the `split_ranges` loop tile `[positions[0],
file_size)` contiguously. -/
theorem splitRangesGo_linked (ps : List Nat) (fs pp r : Nat) (hpp : 1 ≤ pp)
    (hs : ps.Sorted (· < ·)) (hlt : ∀ x ∈ ps, x < fs) (k : Nat)
    (hFk : balIdx pp r k = ps.length) :
    ∀ rem i, i + rem = k → 1 ≤ rem →
    LinkedRanges fs (ps.getD (balIdx pp r i) 0)
      (splitRangesGo ps fs pp r rem i (balIdx pp r i)) := by
  intro rem
  induction rem with
  | zero => intro i _ h1; omega
  | succ rem ih =>
    intro i hik _
    have hFi : balIdx pp r i < ps.length := by
      rw [← hFk]
      exact balIdx_lt_of_lt pp r hpp (by omega)
    unfold splitRangesGo
    dsimp only
    rw [← balIdx_succ]
    cases rem with
    | zero =>
      have hik' : i + 1 = k := by omega
      have he : ps.length ≤ balIdx pp r (i + 1) := by rw [hik', hFk]
      rw [if_pos he]
      refine ⟨rfl, le_of_lt (hlt _ (getD_mem ps _ hFi)), rfl⟩
    | succ rem' =>
      have h1k : i + 1 < k := by omega
      have hFi1 : balIdx pp r (i + 1) < ps.length := by
        rw [← hFk]
        exact balIdx_lt_of_lt pp r hpp h1k
      rw [if_neg (by omega)]
      exact ⟨rfl, (sorted_getD_le_iff hs hFi hFi1).mpr
        (le_of_lt (balIdx_lt_of_lt pp r hpp (by omega))), ih (i + 1) (by omega) (by omega)⟩

/-- Auxiliary assembly lemma for C1: when all segments decode to their
chain emissions, `run` succeeds and its output is a permutation of the
FMT-filtered emission of the whole chain. -/
theorem runDecoder_chain_eq (cfg : ParserConfig) (log : List Nat) (numWorkers : Nat)
    (roundFloats : Bool) (filter : Option (List String)) (order : List Nat)
    (fmts0 : Registry) (ws0 : WarnSink) (ps : List Nat) (b0 : Nat)
    (hpre : preloadFmtMessages cfg log none = some (fmts0, ws0))
    (hch : Chain log (buildStructObjects fmts0) 0 ps)
    (hlinked : LinkedRanges log.length b0
      (splitRanges (findValidSyncPositions log fmts0) numWorkers log.length))
    (hall : ∀ r ∈ splitRanges (findValidSyncPositions log fmts0) numWorkers log.length,
      parseBinSegment cfg log (buildStructObjects fmts0) roundFloats filter r.1 r.2 =
        some ((chainEmit cfg log (buildStructObjects fmts0) roundFloats filter
          (chainFrom ps r.1) r.2).filter
            (fun m => !(dictGet? m "message_type" == some (.str "FMT")))))
    (hsil : ∀ p ∈ ps, p < b0 →
      emitFrame cfg log (buildStructObjects fmts0) roundFloats filter p = [])
    (horder : order.Perm (List.range (numSegments cfg log numWorkers))) :
    ∃ runMsgs, runDecoder cfg log numWorkers roundFloats filter order = some runMsgs ∧
      runMsgs.Perm ((chainEmit cfg log (buildStructObjects fmts0) roundFloats filter
        ps log.length).filter
          (fun m => !(dictGet? m "message_type" == some (.str "FMT")))) := by
  set fmts := buildStructObjects fmts0 with hfmts
  set pred : Msg → Bool :=
    fun m => !(dictGet? m "message_type" == some (.str "FMT")) with hpred
  set emitSeg : Nat × Nat → List Msg :=
    fun r => chainEmit cfg log fmts roundFloats filter (chainFrom ps r.1) r.2 with hemit
  set ranges := splitRanges (findValidSyncPositions log fmts0) numWorkers log.length
    with hranges
  have hlt : ∀ x ∈ ps, x < log.length := by
    intro x hx
    have := hch.mem_lt_length x hx
    omega
  have hmap : mapSegments
      (fun r => parseBinSegment cfg log fmts roundFloats filter r.1 r.2) ranges =
      some (ranges.map (fun r => (emitSeg r).filter pred)) :=
    mapSegments_eq hall
  have hrun : runDecoder cfg log numWorkers roundFloats filter order =
      some (loadAndMergeTempFiles ((order.map
        (fun i => (ranges.map (fun r => (emitSeg r).filter pred)).getD i [])))) := by
    unfold runDecoder
    rw [hpre]
    simp only [← hranges, ← hfmts, hmap]
  refine ⟨_, hrun, ?_⟩
  have hnum : numSegments cfg log numWorkers = ranges.length := by
    unfold numSegments
    simp only [hpre]
  rw [hnum] at horder
  set segs := ranges.map (fun r => (emitSeg r).filter pred) with hsegs
  have hlen : ranges.length = segs.length := by rw [hsegs, List.length_map]
  rw [hlen] at horder
  have hperm1 : (loadAndMergeTempFiles (order.map (fun i => segs.getD i []))).Perm
      ((order.map (fun i => segs.getD i [])).flatten) :=
    List.perm_insertionSort msgLE _
  have hperm2 : ((order.map (fun i => segs.getD i [])).flatten).Perm segs.flatten := by
    have hmp : (order.map (fun i => segs.getD i [])).Perm
        ((List.range segs.length).map (fun i => segs.getD i [])) :=
      horder.map _
    rw [map_getD_range segs []] at hmp
    exact hmp.flatten
  have hflat : segs.flatten = (chainEmit cfg log fmts roundFloats filter
      (chainFrom ps b0) log.length).filter pred := by
    rw [hsegs]
    have : ranges.map (fun r => (emitSeg r).filter pred) =
        (ranges.map emitSeg).map (fun l => l.filter pred) := by
      rw [List.map_map]
      rfl
    rw [this, filter_flatten' pred (ranges.map emitSeg),
      linked_flatten cfg log fmts roundFloats filter ps log.length hlt ranges b0 hlinked]
  have hdrop : chainEmit cfg log fmts roundFloats filter ps log.length =
      chainEmit cfg log fmts roundFloats filter (chainFrom ps b0) log.length :=
    chainEmit_drop_silent cfg log fmts roundFloats filter ps b0 log.length hsil hlt
  rw [hflat, ← hdrop] at hperm2
  exact hperm1.trans hperm2

theorem sorted_head_le {l : List Nat} (hs : l.Sorted (· < ·)) {x : Nat} (hx : x ∈ l) :
    l.getD 0 0 ≤ x := by
  cases l with
  | nil => cases hx
  | cons a t =>
    rw [List.getD_cons_zero]
    rcases List.mem_cons.mp hx with rfl | hx
    · exact le_refl _
    · exact le_of_lt (List.rel_of_sorted_cons hs x hx)

/-- C1: on a well-formed log, for every worker count `W ≥ 1`, both
execution modes (process mode delivers segments in order, thread mode in
an arbitrary completion order — hence the quantification over `order` as a
permutation of the segment indices), and every name filter, the multiset
of messages returned by `ParallelBinDecoder.run` equals the multiset
produced by a single `_parse_bin_segment` decode of the whole range
`(0, file_size)` over the same discovered registry. -/
theorem c1_parallel_run_matches_single_decode (cfg : ParserConfig) (log : List Nat)
    (numWorkers : Nat) (roundFloats : Bool) (filter : Option (List String))
    (order : List Nat)
    (_hW : 1 ≤ numWorkers)
    (hwf : wellFormed cfg log = true)
    (horder : order.Perm (List.range (numSegments cfg log numWorkers))) :
    ∃ fmts0 ws0 runMsgs singleMsgs,
      preloadFmtMessages cfg log none = some (fmts0, ws0) ∧
      runDecoder cfg log numWorkers roundFloats filter order = some runMsgs ∧
      parseBinSegment cfg log (buildStructObjects fmts0) roundFloats filter 0 log.length =
        some singleMsgs ∧
      runMsgs.Perm singleMsgs := by
  unfold wellFormed at hwf
  rcases hpre : preloadFmtMessages cfg log none with _ | pr
  · rw [hpre] at hwf; cases hwf
  · rcases pr with ⟨fmts0, ws0⟩
    simp only [hpre] at hwf
    rcases hfc : frameChain log (buildStructObjects fmts0) (log.length + 1) 0 with _ | ps
    · simp only [hfc] at hwf
      exact (Bool.false_ne_true hwf).elim
    · simp only [hfc] at hwf
      have hch : Chain log (buildStructObjects fmts0) 0 ps := frameChain_sound hfc
      have hlt : ∀ x ∈ ps, x < log.length := by
        intro x hx
        have := hch.mem_lt_length x hx
        omega
      have hspur : ∀ q, bytesMatchAt log syncMarker q = true → q ∈ ps := by
        intro q hq
        have hqN := bytesMatchAt_le_length hq
        rw [syncMarker_length] at hqN
        have hq' := List.all_eq_true.mp hwf q (by rw [List.mem_range]; omega)
        rw [hq] at hq'
        simpa using hq'
      have hb0 : (0 : Nat) = log.length ∨ 0 ∈ ps := by
        cases ps with
        | nil => exact Or.inl (hch.eq_nil_iff rfl)
        | cons p rest =>
          have hp0 := hch.head_eq
          exact Or.inr (by rw [← hp0]; exact List.mem_cons_self p rest)
      have hsingle := parseBinSegment_chain cfg log (buildStructObjects fmts0) roundFloats
        filter hch 0 log.length hb0 (Or.inl rfl) (Nat.zero_le _) (fun h => h)
      rw [chainFrom_zero] at hsingle
      have hPsorted : (findValidSyncPositions log fmts0).Sorted (· < ·) :=
        findValidSyncPositions_sorted log fmts0
      have hPsub : ∀ q ∈ findValidSyncPositions log fmts0, q ∈ ps := by
        intro q hq
        have hv := mem_findValidSyncPositions.mp hq
        unfold validSyncB at hv
        rw [Bool.and_eq_true, Bool.and_eq_true] at hv
        exact hspur q hv.1.1
      have hPlt : ∀ q ∈ findValidSyncPositions log fmts0, q < log.length := by
        intro q hq
        have hv := mem_findValidSyncPositions.mp hq
        unfold validSyncB at hv
        rw [Bool.and_eq_true, Bool.and_eq_true, decide_eq_true_eq] at hv
        omega
      by_cases hPe : findValidSyncPositions log fmts0 = []
      · have hranges : splitRanges (findValidSyncPositions log fmts0) numWorkers
            log.length = [(0, log.length)] := by
          rw [hPe]
          rfl
        have hall : ∀ r ∈ splitRanges (findValidSyncPositions log fmts0) numWorkers
            log.length,
            parseBinSegment cfg log (buildStructObjects fmts0) roundFloats filter r.1 r.2 =
              some ((chainEmit cfg log (buildStructObjects fmts0) roundFloats filter
                (chainFrom ps r.1) r.2).filter
                  (fun m => !(dictGet? m "message_type" == some (.str "FMT")))) := by
          rw [hranges]
          intro r hr
          rw [List.mem_singleton] at hr
          subst hr
          exact parseBinSegment_chain cfg log (buildStructObjects fmts0) roundFloats filter
            hch 0 log.length hb0 (Or.inl rfl) (Nat.zero_le _) (fun h => h)
        have hlinked : LinkedRanges log.length 0
            (splitRanges (findValidSyncPositions log fmts0) numWorkers log.length) := by
          rw [hranges]
          exact ⟨rfl, Nat.zero_le _, rfl⟩
        obtain ⟨runMsgs, hrun, hperm⟩ := runDecoder_chain_eq cfg log numWorkers roundFloats
          filter order fmts0 ws0 ps 0 hpre hch hlinked hall
          (fun p _ h => absurd h (by omega)) horder
        exact ⟨fmts0, ws0, runMsgs, _, rfl, hrun, hsingle, hperm⟩
      · have hn1 : 1 ≤ (findValidSyncPositions log fmts0).length := by
          cases hfvp : findValidSyncPositions log fmts0 with
          | nil => exact absurd hfvp hPe
          | cons a l => simp
        set P := findValidSyncPositions log fmts0 with hPd
        set n := P.length with hn
        set k := max 1 (min numWorkers n) with hk
        have hk1 : 1 ≤ k := le_max_left _ _
        have hkn : k ≤ n := by omega
        set pp := n / k with hpp
        set rr := n % k with hrr
        have hpp1 : 1 ≤ pp := (Nat.one_le_div_iff (by omega)).mpr hkn
        have hrk : rr < k := Nat.mod_lt _ (by omega)
        have hFk : balIdx pp rr k = n := by
          unfold balIdx
          have h1 : min k rr = rr := by omega
          have h2 : k * pp + rr = n := by
            rw [hpp, hrr]
            exact Nat.div_add_mod n k
          omega
        have hFlt : ∀ j, j < k → balIdx pp rr j < n := by
          intro j hj
          have := balIdx_lt_of_lt pp rr hpp1 hj
          omega
        have hsplit_eq : splitRanges P numWorkers log.length =
            splitRangesGo P log.length pp rr k 0 0 := by
          unfold splitRanges
          rw [if_neg (by simpa using hPe)]
        have hgo0 : balIdx pp rr 0 = 0 := balIdx_zero pp rr
        have hlinked : LinkedRanges log.length (P.getD 0 0)
            (splitRanges P numWorkers log.length) := by
          rw [hsplit_eq]
          have := splitRangesGo_linked P log.length pp rr hpp1 hPsorted hPlt k hFk k 0
            (by omega) (by omega)
          rw [hgo0] at this
          exact this
        have hsplit_eq2 : splitRanges P numWorkers log.length =
            splitRangesGo P log.length pp rr k 0 (balIdx pp rr 0) := by
          rw [hsplit_eq, hgo0]
        have hget : ∀ j, j < k →
            (splitRanges P numWorkers log.length).getD j (0, 0) =
              (P.getD (balIdx pp rr j) 0,
                if n ≤ balIdx pp rr (j + 1) then log.length
                else P.getD (balIdx pp rr (j + 1)) 0) := by
          intro j hj
          rw [hsplit_eq2, splitRangesGo_getD P log.length pp rr k 0 j hj]
          simp
        have hlen_ranges : (splitRanges P numWorkers log.length).length = k := by
          rw [hsplit_eq, splitRangesGo_length]
        have hall : ∀ r ∈ splitRanges P numWorkers log.length,
            parseBinSegment cfg log (buildStructObjects fmts0) roundFloats filter r.1 r.2 =
              some ((chainEmit cfg log (buildStructObjects fmts0) roundFloats filter
                (chainFrom ps r.1) r.2).filter
                  (fun m => !(dictGet? m "message_type" == some (.str "FMT")))) := by
          intro r hr
          obtain ⟨j, hj, hjr⟩ := List.mem_iff_getElem.mp hr
          have hjk : j < k := by rw [← hlen_ranges]; exact hj
          have hgd : (splitRanges P numWorkers log.length).getD j (0, 0) = r := by
            rw [getD_eq_getElem' _ _ j hj, hjr]
          rw [hget j hjk] at hgd
          have hFj : balIdx pp rr j < n := hFlt j hjk
          have hstart : r.1 = P.getD (balIdx pp rr j) 0 := by rw [← hgd]
          have hstartP : r.1 ∈ P := by rw [hstart]; exact getD_mem P _ hFj
          have hbmem : r.1 = log.length ∨ r.1 ∈ ps := Or.inr (hPsub _ hstartP)
          by_cases hend : n ≤ balIdx pp rr (j + 1)
          · have hendr : r.2 = log.length := by rw [← hgd]; simp [hend]
            rw [hendr]
            have := parseBinSegment_chain cfg log (buildStructObjects fmts0) roundFloats
              filter hch r.1 log.length hbmem (Or.inl rfl)
              (le_of_lt (hPlt _ hstartP)) (fun h => h)
            exact this
          · have hFj1 : balIdx pp rr (j + 1) < n := by omega
            have hendr : r.2 = P.getD (balIdx pp rr (j + 1)) 0 := by
              rw [← hgd]
              simp [hend]
            have hendP : r.2 ∈ P := by rw [hendr]; exact getD_mem P _ hFj1
            have hlt01 : P.getD 0 0 < P.getD (balIdx pp rr (j + 1)) 0 := by
              apply sorted_getD_lt_getD hPsorted hFj1
              have := balIdx_lt_of_lt pp rr hpp1 (show 0 < j + 1 by omega)
              omega
            refine parseBinSegment_chain cfg log (buildStructObjects fmts0) roundFloats
              filter hch r.1 r.2 hbmem (Or.inr (hPsub _ hendP)) ?_ ?_
            · rw [hstart, hendr]
              exact (sorted_getD_le_iff hPsorted hFj hFj1).mpr
                (le_of_lt (balIdx_lt_of_lt pp rr hpp1 (by omega)))
            · intro h0
              rw [hendr] at h0
              omega
        have hsil : ∀ p ∈ ps, p < P.getD 0 0 →
            emitFrame cfg log (buildStructObjects fmts0) roundFloats filter p = [] := by
          intro p hp hplt
          rcases hch.node p hp with hfmt | ⟨f, hreg, hok, hflen, hmark⟩
          · unfold emitFrame
            rw [if_pos hfmt]
          · exfalso
            obtain ⟨hso, h4, _, _, _⟩ := fmtDefOk_iff.mp hok
            rw [regGet?_build] at hreg
            rcases hf0 : regGet? fmts0 (log.getD (p + 2) 0) with _ | f0
            · rw [hf0] at hreg; cases hreg
            · rw [hf0] at hreg
              have hfeq : f = { f0 with hasStructObj := true } :=
                (Option.some.inj hreg).symm
              have hmlen : f.messageLength = f0.messageLength := by rw [hfeq]
              have hpP : p ∈ P := by
                rw [hPd]
                rw [mem_findValidSyncPositions]
                unfold validSyncB
                rw [hf0, Bool.and_eq_true, Bool.and_eq_true]
                refine ⟨⟨hmark, ?_⟩, ?_⟩
                · simp only [decide_eq_true_eq]
                  omega
                · simp only [decide_eq_true_eq]
                  omega
              have : P.getD 0 0 ≤ p := sorted_head_le hPsorted hpP
              omega
        obtain ⟨runMsgs, hrun, hperm⟩ := runDecoder_chain_eq cfg log numWorkers roundFloats
          filter order fmts0 ws0 ps (P.getD 0 0) hpre hch hlinked hall hsil horder
        exact ⟨fmts0, ws0, runMsgs, _, rfl, hrun, hsingle, hperm⟩

/-- C1 (witness): the 93-byte log — an FMT record declaring type 200
`TST` with one `uint8` field, followed by one data message — decoded with
one worker in delivery order `[0]`. -/
theorem c1_parallel_run_matches_single_decode_witness :
    ((1 : Nat) ≤ 1 ∧
      wellFormed ⟨[('B', [.uint 1])], [], []⟩
        ([0xA3, 0x95, 0x80, 200, 4] ++ [84, 83, 84, 0] ++
          (66 :: List.replicate 15 0) ++ (65 :: List.replicate 63 0) ++
          [0xA3, 0x95, 200, 7]) = true ∧
      List.Perm [0] (List.range (numSegments ⟨[('B', [.uint 1])], [], []⟩
        ([0xA3, 0x95, 0x80, 200, 4] ++ [84, 83, 84, 0] ++
          (66 :: List.replicate 15 0) ++ (65 :: List.replicate 63 0) ++
          [0xA3, 0x95, 200, 7]) 1))) ∧
    (∃ fmts0 ws0 runMsgs singleMsgs,
      preloadFmtMessages ⟨[('B', [.uint 1])], [], []⟩
        ([0xA3, 0x95, 0x80, 200, 4] ++ [84, 83, 84, 0] ++
          (66 :: List.replicate 15 0) ++ (65 :: List.replicate 63 0) ++
          [0xA3, 0x95, 200, 7]) none = some (fmts0, ws0) ∧
      runDecoder ⟨[('B', [.uint 1])], [], []⟩
        ([0xA3, 0x95, 0x80, 200, 4] ++ [84, 83, 84, 0] ++
          (66 :: List.replicate 15 0) ++ (65 :: List.replicate 63 0) ++
          [0xA3, 0x95, 200, 7]) 1 false none [0] = some runMsgs ∧
      parseBinSegment ⟨[('B', [.uint 1])], [], []⟩
        ([0xA3, 0x95, 0x80, 200, 4] ++ [84, 83, 84, 0] ++
          (66 :: List.replicate 15 0) ++ (65 :: List.replicate 63 0) ++
          [0xA3, 0x95, 200, 7]) (buildStructObjects fmts0) false none 0
        ([0xA3, 0x95, 0x80, 200, 4] ++ [84, 83, 84, 0] ++
          (66 :: List.replicate 15 0) ++ (65 :: List.replicate 63 0) ++
          [0xA3, 0x95, 200, 7] : List Nat).length = some singleMsgs ∧
      runMsgs.Perm singleMsgs) :=
  ⟨⟨le_refl 1, by decide, by decide⟩,
    c1_parallel_run_matches_single_decode ⟨[('B', [.uint 1])], [], []⟩
      ([0xA3, 0x95, 0x80, 200, 4] ++ [84, 83, 84, 0] ++
        (66 :: List.replicate 15 0) ++ (65 :: List.replicate 63 0) ++
        [0xA3, 0x95, 200, 7]) 1 false none [0]
      (le_refl 1) (by decide) (by decide)⟩

end FlightLog
